import Mathlib

/-!
# gonutz/tiled: the attribute decoders and `Read`

A shallow embedding of `tiled.go`.

* A Go `string` is a sequence of bytes, modelled as `List Nat` (`GoString`);
  indexing and slicing (`s[1:]`) count bytes, as in Go.
* A method with a pointer receiver is a function from the receiver's value
  before the call to `Option (receiver after the call × returned error)`;
  `none` stands for a run-time panic (index or slice bound out of range).
* The Go standard library functions the file calls (`hex.DecodeString`,
  `strings.Split`, `strconv.Atoi`, `errors.New`, `xml.Decoder.Decode`) are
  modelled by their Go semantics, each in a namespace named after its package.
-/

namespace tiled

/-- A Go string: its bytes, in order. -/
abbrev GoString := List Nat

/-- The bytes of an ASCII string literal. -/
def ascii (s : String) : GoString := s.toList.map Char.toNat

/-- The `Err` field of a `*strconv.NumError`. -/
inductive NumErr where
  | ErrSyntax
  | ErrRange
  deriving DecidableEq, Repr

/-- The Go `error` values that can reach a caller of this package. -/
inductive Error where
  /-- Value `hex.InvalidByteError(b)`. -/
  | InvalidByteError (b : Nat)
  /-- Value `hex.ErrLength`. -/
  | ErrLength
  /-- Value `errors.New(text)`. -/
  | New (text : GoString)
  /-- Value `&strconv.NumError{Func, Num, Err}`. -/
  | NumError (Func Num : GoString) (Err : NumErr)
  /-- Value `xml.UnmarshalError(text)`. -/
  | UnmarshalError (text : GoString)
  deriving DecidableEq, Repr

/-- Go `s[lo:]` on a string: panics (`none`) when `lo > len(s)`. -/
def sliceFrom (s : GoString) (lo : Nat) : Option GoString :=
  if lo ≤ s.length then some (s.drop lo) else none

/-- Go `b[i]` on a byte slice with an `int` index: panics (`none`) when `i` is out of range. -/
def index (b : List Nat) (i : Int) : Option Nat :=
  if i < 0 then none else b[i.toNat]?

namespace xml

/-- Go `xml.Name`. -/
structure Name where
  Space : GoString
  Local : GoString
  deriving DecidableEq, Repr

/-- Go `xml.Attr`. -/
structure Attr where
  Name : Name
  Value : GoString
  deriving DecidableEq, Repr

end xml

namespace hex

/-- Go `encoding/hex`: the value of a hexadecimal digit (`reverseHexTable`), `none` for any
other byte. -/
def fromHexChar (c : Nat) : Option Nat :=
  if 48 ≤ c ∧ c ≤ 57 then some (c - 48)
  else if 97 ≤ c ∧ c ≤ 102 then some (c - 97 + 10)
  else if 65 ≤ c ∧ c ≤ 70 then some (c - 65 + 10)
  else none

/-- Go `hex.Decode`: pairs of digits are decoded left to right, the first bad byte is reported
as `InvalidByteError`; a single trailing digit is `ErrLength`. -/
def Decode : List Nat → Except Error (List Nat)
  | [] => .ok []
  | [p] => if fromHexChar p = none then .error (.InvalidByteError p) else .error .ErrLength
  | p :: q :: rest =>
    match fromHexChar p with
    | none => .error (.InvalidByteError p)
    | some a =>
      match fromHexChar q with
      | none => .error (.InvalidByteError q)
      | some b =>
        match Decode rest with
        | .error e => .error e
        | .ok bs => .ok (((a <<< 4) ||| b) :: bs)

/-- Go `hex.DecodeString`. -/
def DecodeString (s : GoString) : Except Error (List Nat) := Decode s

end hex

/-- Go `type Color struct{ R, G, B, A uint8 }`. -/
structure Color where
  R : Nat
  G : Nat
  B : Nat
  A : Nat
  deriving DecidableEq, Repr

/-- The zero value of `Color`. -/
def Color.zero : Color := { R := 0, G := 0, B := 0, A := 0 }

/-- The channel assignments of `Color.UnmarshalXMLAttr` after the hex decoding
(tiled.go:79-91): `n := len(bytes) - 1`, then the four guarded assignments. -/
def Color.setChannels (c : Color) (bytes : List Nat) : Option Color :=
  let n : Int := (bytes.length : Int) - 1
  (if n > 0 then (index bytes n).map (fun b => { c with B := b }) else some c).bind fun c =>
  (if n > 1 then (index bytes (n - 1)).map (fun b => { c with G := b }) else some c).bind fun c =>
  (if n > 2 then (index bytes (n - 2)).map (fun b => { c with R := b }) else some c).bind fun c =>
  (if n > 3 then (index bytes (n - 3)).map (fun b => { c with A := b }) else some c)

/-- Method `func (c *Color) UnmarshalXMLAttr(attr xml.Attr) error` (tiled.go:71-93). -/
def Color.UnmarshalXMLAttr (c : Color) (attr : xml.Attr) : Option (Color × Option Error) :=
  if attr.Value.length = 0 then
    some (c, none)
  else
    match sliceFrom attr.Value 1 with
    | none => none
    | some rest =>
      match hex.DecodeString rest with
      | .error err => some (c, some err)
      | .ok bytes =>
        match c.setChannels bytes with
        | none => none
        | some c => some (c, none)

namespace strings

/-- Go `strings.Split(s, sep)` for a separator `sep` of one byte: the fields of `s` between the
occurrences of `sep`, in order; one more field than there are separators. -/
def Split : GoString → Nat → List GoString
  | [], _ => [[]]
  | c :: cs, sep =>
    if c = sep then
      [] :: Split cs sep
    else
      match Split cs sep with
      | [] => [[c]]
      | f :: fs => (c :: f) :: fs

/-- The UTF-8 encodings of the runes for which Go `unicode.IsSpace` holds. -/
def spaceRunes : List (List Nat) :=
  [[0x09], [0x0A], [0x0B], [0x0C], [0x0D], [0x20], [0xC2, 0x85], [0xC2, 0xA0],
   [0xE1, 0x9A, 0x80],
   [0xE2, 0x80, 0x80], [0xE2, 0x80, 0x81], [0xE2, 0x80, 0x82], [0xE2, 0x80, 0x83],
   [0xE2, 0x80, 0x84], [0xE2, 0x80, 0x85], [0xE2, 0x80, 0x86], [0xE2, 0x80, 0x87],
   [0xE2, 0x80, 0x88], [0xE2, 0x80, 0x89], [0xE2, 0x80, 0x8A],
   [0xE2, 0x80, 0xA8], [0xE2, 0x80, 0xA9], [0xE2, 0x80, 0xAF], [0xE2, 0x81, 0x9F],
   [0xE3, 0x80, 0x80]]

/-- Drops leading occurrences of the given byte sequences, at most `fuel` of them. -/
def trimLeft (runes : List (List Nat)) : Nat → GoString → GoString
  | 0, s => s
  | fuel + 1, s =>
    match runes.find? (fun r => r.isPrefixOf s) with
    | none => s
    | some r => trimLeft runes fuel (s.drop r.length)

/-- Go `strings.TrimSpace`: `s` without its leading and trailing white space runes. Every
dropped rune has at least one byte, so `len(s)` steps are enough on each side. -/
def TrimSpace (s : GoString) : GoString :=
  let l := trimLeft spaceRunes s.length s
  (trimLeft (spaceRunes.map List.reverse) l.length l.reverse).reverse

end strings

namespace errors

/-- Go `errors.New`. -/
def New (text : GoString) : Error := Error.New text

end errors

namespace strconv

/-- Go `strconv.IntSize` on a 64-bit platform. -/
def IntSize : Nat := 64

/-- The digit loop of Go `strconv.ParseUint(s, 10, 64)`, from the accumulated value `n`. -/
def parseUintDigits (n : Nat) : List Nat → Except NumErr Nat
  | [] => .ok n
  | c :: cs =>
    if 48 ≤ c ∧ c ≤ 57 then
      let d := c - 48
      if n ≥ (2 ^ 64 - 1) / 10 + 1 then
        .error .ErrRange
      else
        let n10 := n * 10
        let n1 := (n10 + d) % 2 ^ 64
        if n1 < n10 ∨ n1 > 2 ^ 64 - 1 then .error .ErrRange else parseUintDigits n1 cs
    else
      .error .ErrSyntax

/-- Go `strconv.ParseUint(s, 10, 64)`, the kind of error only. -/
def ParseUint (s : GoString) : Except NumErr Nat :=
  if s.length = 0 then .error .ErrSyntax else parseUintDigits 0 s

/-- Go `strconv.ParseInt(s, 10, 64)`, the kind of error only: an optional sign, then
`ParseUint`, then the range check against `1 << 63`. -/
def parseInt (s : GoString) : Except NumErr Int :=
  match s with
  | [] => .error .ErrSyntax
  | c :: cs =>
    let neg : Bool := c = 45
    let digits := if c = 43 ∨ c = 45 then cs else s
    match ParseUint digits with
    | .error .ErrSyntax => .error .ErrSyntax
    | .error .ErrRange => .error .ErrRange
    | .ok un =>
      if ¬ neg ∧ un ≥ 2 ^ (IntSize - 1) then .error .ErrRange
      else if neg ∧ un > 2 ^ (IntSize - 1) then .error .ErrRange
      else .ok (if neg then -(un : Int) else (un : Int))

/-- Go `strconv.ParseInt(s, 10, 64)`. -/
def ParseInt (s : GoString) : Except Error Int :=
  match parseInt s with
  | .ok n => .ok n
  | .error k => .error (.NumError (ascii "ParseInt") s k)

/-- Go `strconv.Atoi(s)` with a 64-bit `int`: `ParseInt(s, 10, 0)` with the error's `Func` set
to `"Atoi"` (the fast path for short strings returns the same results). -/
def Atoi (s : GoString) : Except Error Int :=
  match parseInt s with
  | .ok n => .ok n
  | .error k => .error (.NumError (ascii "Atoi") s k)

end strconv

/-- Go `type Orientation string`. -/
abbrev Orientation := GoString

/-- Constant `Orthogonal Orientation = "orthogonal"`. -/
def Orthogonal : Orientation := ascii "orthogonal"

/-- Method `func (o *Orientation) UnmarshalXMLAttr(attr xml.Attr) error` (tiled.go:44-50). -/
def Orientation.UnmarshalXMLAttr (_o : Orientation) (attr : xml.Attr) :
    Option (Orientation × Option Error) :=
  let o : Orientation := attr.Value
  let o := if o.length = 0 then Orthogonal else o
  some (o, none)

/-- Go `type RenderOrder string`. -/
abbrev RenderOrder := GoString

/-- Constant `RighDown RenderOrder = "right-down"`. -/
def RighDown : RenderOrder := ascii "right-down"

/-- Method `func (o *RenderOrder) UnmarshalXMLAttr(attr xml.Attr) error` (tiled.go:61-67). -/
def RenderOrder.UnmarshalXMLAttr (_o : RenderOrder) (attr : xml.Attr) :
    Option (RenderOrder × Option Error) :=
  let o : RenderOrder := attr.Value
  let o := if o.length = 0 then RighDown else o
  some (o, none)

/-- Go `[4]int`. -/
abbrev Array4 := { l : List Int // l.length = 4 }

/-- The zero value of `[4]int`. -/
def Array4.zero : Array4 := ⟨[0, 0, 0, 0], rfl⟩

/-- Go `a[i] = v` on a `[4]int`: panics (`none`) when `i` is out of range. -/
def Array4.setIndex (a : Array4) (i : Nat) (v : Int) : Option Array4 :=
  if i < 4 then some ⟨a.1.set i v, by rw [List.length_set]; exact a.2⟩ else none

/-- Go `type TerrainList struct { Valid bool; Corners [4]int }`. -/
structure TerrainList where
  Valid : Bool
  Corners : Array4
  deriving DecidableEq

/-- The zero value of `TerrainList`. -/
def TerrainList.zero : TerrainList := { Valid := false, Corners := Array4.zero }

/-- Constant `NoTerrain = -1`. -/
def NoTerrain : Int := -1

/-- The loop `for i, part := range parts { ... }` of `TerrainList.UnmarshalXMLAttr`
(tiled.go:157-167), entered at index `i` with the parts from `i` on; the error is the one of
the `return err` inside the loop. -/
def TerrainList.rangeParts (t : TerrainList) : Nat → List GoString →
    Option (TerrainList × Option Error)
  | _, [] => some (t, none)
  | i, part :: rest =>
    match t.Corners.setIndex i NoTerrain with
    | none => none
    | some cs =>
      let t := { t with Corners := cs }
      if part.length > 0 then
        match strconv.Atoi part with
        | .error err => some (t, some err)
        | .ok n =>
          match t.Corners.setIndex i n with
          | none => none
          | some cs => TerrainList.rangeParts { t with Corners := cs } (i + 1) rest
      else
        TerrainList.rangeParts t (i + 1) rest

/-- The text of the format error of `TerrainList.UnmarshalXMLAttr` (spelled as in the source). -/
def terrainListMessage : GoString :=
  ascii "invlaid terrain list, must contain four comma-separated parts: "

/-- Method `func (t *TerrainList) UnmarshalXMLAttr(attr xml.Attr) error` (tiled.go:152-170). -/
def TerrainList.UnmarshalXMLAttr (t : TerrainList) (attr : xml.Attr) :
    Option (TerrainList × Option Error) :=
  let parts := strings.Split attr.Value 44
  if parts.length ≠ 4 then
    some (t, some (errors.New (terrainListMessage ++ attr.Value)))
  else
    match TerrainList.rangeParts t 0 parts with
    | none => none
    | some (t, some err) => some (t, some err)
    | some (t, none) => some ({ t with Valid := true }, none)

/-! ## `encoding/xml`: unmarshalling an element into the structs of the package

`Read` is `xml.NewDecoder(r).Decode(&m)`. In this part a well-formed document is given by the
tree of its first (root) element, with the attribute values and character data as the
tokenizer delivers them; how the tokenizer gets them from the bytes of the input is the next
part. Comments, processing instructions and directives are left out
of the tree, since no struct of the package has a field for them. What is modelled is the
struct unmarshalling of `encoding/xml` (`Decoder.unmarshal`, `unmarshalAttr`, `unmarshalPath`,
`copyValue`) for the field tags of `tiled.go`. -/

namespace xml

/-- Go `xml.StartElement`. -/
structure StartElement where
  Name : Name
  Attr : List Attr

/-- The content of a well-formed document below its root: an element with its start tag and
its content, or a run of character data. -/
inductive Node where
  | Element (start : StartElement) (content : List Node)
  | CharData (data : GoString)

/-- How a call into the decoder ends when it does not return `nil`: with a Go error, or with
a run-time panic. -/
inductive Abort where
  | err (e : Error)
  | panic

/-- The result of a custom `UnmarshalXMLAttr` as `unmarshalAttr` passes it on: the receiver
on `nil`, the error otherwise. -/
def unmarshalAttr {σ : Type} (r : Option (σ × Option Error)) : Except Abort σ :=
  match r with
  | none => .error .panic
  | some (_, some e) => .error (.err e)
  | some (v, none) => .ok v

/-- Go `copyValue` into an `int` field: the empty value is 0, any other value goes through
`strconv.ParseInt(strings.TrimSpace(src), 10, 64)`. -/
def copyInt (src : GoString) : Except Abort Int :=
  if src.length = 0 then
    .ok 0
  else
    match strconv.ParseInt (strings.TrimSpace src) with
    | .ok n => .ok n
    | .error e => .error (.err e)

/-- The check of the `XMLName` field's tag against the element's name. -/
def checkName (name : GoString) (start : StartElement) : Except Abort Unit :=
  if name ≠ [] ∧ name ≠ start.Name.Local then
    .error (.err (.UnmarshalError
      (ascii "expected element type <" ++ name ++ ascii "> but have <" ++ start.Name.Local
        ++ ascii ">")))
  else
    .ok ()

/-- The character data directly inside an element, concatenated (what a `,chardata` field
receives). -/
def charData : List Node → GoString
  | [] => []
  | .CharData data :: rest => data ++ charData rest
  | .Element _ _ :: rest => charData rest

end xml

/-- Go `type Image struct` (tiled.go:114-119). -/
structure Image where
  XMLName : xml.Name
  Source : GoString
  Width : Int
  Height : Int
  deriving DecidableEq

/-- The zero value of `Image`. -/
def Image.zero : Image := { XMLName := ⟨[], []⟩, Source := [], Width := 0, Height := 0 }

/-- Go `type Terrain struct` (tiled.go:126-130). -/
structure Terrain where
  XMLName : xml.Name
  Name : GoString
  Tile : Int
  deriving DecidableEq

/-- The zero value of `Terrain`. -/
def Terrain.zero : Terrain := { XMLName := ⟨[], []⟩, Name := [], Tile := 0 }

/-- Go `type TerrainTypes struct` (tiled.go:121-124). -/
structure TerrainTypes where
  XMLName : xml.Name
  Terrains : List Terrain
  deriving DecidableEq

/-- The zero value of `TerrainTypes`. -/
def TerrainTypes.zero : TerrainTypes := { XMLName := ⟨[], []⟩, Terrains := [] }

/-- Go `type Tile struct` (tiled.go:132-136). -/
structure Tile where
  XMLName : xml.Name
  ID : Int
  Terrain : TerrainList
  deriving DecidableEq

/-- The zero value of `Tile`. -/
def Tile.zero : Tile := { XMLName := ⟨[], []⟩, ID := 0, Terrain := TerrainList.zero }

/-- Go `type TileSet struct` (tiled.go:95-110). -/
structure TileSet where
  XMLName : xml.Name
  FirstGlobalID : Int
  Source : GoString
  Name : GoString
  TileWidth : Int
  TileHeight : Int
  Spacing : Int
  Margin : Int
  TileCount : Int
  Columns : Int
  Image : Image
  TerrainTypes : TerrainTypes
  Tiles : List Tile
  deriving DecidableEq

/-- The zero value of `TileSet`. -/
def TileSet.zero : TileSet :=
  { XMLName := ⟨[], []⟩, FirstGlobalID := 0, Source := [], Name := [], TileWidth := 0,
    TileHeight := 0, Spacing := 0, Margin := 0, TileCount := 0, Columns := 0,
    Image := Image.zero, TerrainTypes := TerrainTypes.zero, Tiles := [] }

/-- Go `type LayerData struct` (tiled.go:183-188). -/
structure LayerData where
  XMLName : xml.Name
  Encoding : GoString
  Compression : GoString
  Text : GoString
  deriving DecidableEq

/-- The zero value of `LayerData`. -/
def LayerData.zero : LayerData :=
  { XMLName := ⟨[], []⟩, Encoding := [], Compression := [], Text := [] }

/-- Go `type Layer struct` (tiled.go:172-178). -/
structure Layer where
  XMLName : xml.Name
  Name : GoString
  Width : Int
  Height : Int
  Data : LayerData
  deriving DecidableEq

/-- The zero value of `Layer`. -/
def Layer.zero : Layer :=
  { XMLName := ⟨[], []⟩, Name := [], Width := 0, Height := 0, Data := LayerData.zero }

/-- Go `type Map struct` (tiled.go:17-33). -/
structure Map where
  XMLName : xml.Name
  Version : GoString
  Orientation : Orientation
  RenderOrder : RenderOrder
  Width : Int
  Height : Int
  TileWidth : Int
  TileHeight : Int
  HexSideLength : Int
  StaggerAxis : Int
  StaggerIndex : Int
  BackgroundColor : Color
  NextObjectID : Int
  TileSets : List TileSet
  Layers : List Layer
  deriving DecidableEq

/-- The zero value of `Map`. -/
def Map.zero : Map :=
  { XMLName := ⟨[], []⟩, Version := [], Orientation := [], RenderOrder := [], Width := 0,
    Height := 0, TileWidth := 0, TileHeight := 0, HexSideLength := 0, StaggerAxis := 0,
    StaggerIndex := 0, BackgroundColor := Color.zero, NextObjectID := 0, TileSets := [],
    Layers := [] }

namespace xml

/-- A loop of the decoder over the attributes of a start tag, or over the content of an
element: the steps run in order, and the first one that does not return `nil` ends the loop. -/
def forEach {σ α : Type} (step : σ → α → Except Abort σ) : σ → List α → Except Abort σ
  | v, [] => .ok v
  | v, a :: rest =>
    match step v a with
    | .error e => .error e
    | .ok w => forEach step w rest

/-- An `int` attribute field: the parsed value stored by `set`. -/
def intAttr {σ : Type} (a : Attr) (set : Int → σ) : Except Abort σ :=
  match copyInt a.Value with
  | .error e => .error e
  | .ok n => .ok (set n)

end xml

/-- One attribute of an `image` start tag, matched against the `,attr` fields of `Image`. -/
def Image.attr (v : Image) (a : xml.Attr) : Except xml.Abort Image :=
  if a.Name.Local = ascii "source" then .ok { v with Source := a.Value }
  else if a.Name.Local = ascii "width" then xml.intAttr a fun n => { v with Width := n }
  else if a.Name.Local = ascii "height" then xml.intAttr a fun n => { v with Height := n }
  else .ok v

/-- Unmarshalling an `image` element into an `Image`; its sub-elements are skipped. -/
def Image.unmarshal (v : Image) (start : xml.StartElement) (_content : List xml.Node) :
    Except xml.Abort Image :=
  match xml.checkName (ascii "image") start with
  | .error e => .error e
  | .ok _ => xml.forEach Image.attr { v with XMLName := start.Name } start.Attr

/-- One attribute of a `terrain` start tag, matched against the `,attr` fields of `Terrain`. -/
def Terrain.attr (v : Terrain) (a : xml.Attr) : Except xml.Abort Terrain :=
  if a.Name.Local = ascii "name" then .ok { v with Name := a.Value }
  else if a.Name.Local = ascii "tile" then xml.intAttr a fun n => { v with Tile := n }
  else .ok v

/-- Unmarshalling a `terrain` element into a `Terrain`; its sub-elements are skipped. -/
def Terrain.unmarshal (v : Terrain) (start : xml.StartElement) (_content : List xml.Node) :
    Except xml.Abort Terrain :=
  match xml.checkName (ascii "terrain") start with
  | .error e => .error e
  | .ok _ => xml.forEach Terrain.attr { v with XMLName := start.Name } start.Attr

/-- One node of the content of a `terraintypes` element: a `terrain` element is unmarshalled
into a new last entry of `Terrains`, anything else is skipped. -/
def TerrainTypes.child (v : TerrainTypes) : xml.Node → Except xml.Abort TerrainTypes
  | .CharData _ => .ok v
  | .Element start content =>
    if start.Name.Local = ascii "terrain" then
      match Terrain.unmarshal Terrain.zero start content with
      | .error e => .error e
      | .ok t => .ok { v with Terrains := v.Terrains ++ [t] }
    else .ok v

/-- Unmarshalling a `terraintypes` element into a `TerrainTypes` (no attribute fields). -/
def TerrainTypes.unmarshal (v : TerrainTypes) (start : xml.StartElement)
    (content : List xml.Node) : Except xml.Abort TerrainTypes :=
  match xml.checkName (ascii "terraintypes") start with
  | .error e => .error e
  | .ok _ => xml.forEach TerrainTypes.child { v with XMLName := start.Name } content

/-- One attribute of a `tile` start tag, matched against the `,attr` fields of `Tile`; the
`terrain` attribute goes to `TerrainList.UnmarshalXMLAttr` on the field. -/
def Tile.attr (v : Tile) (a : xml.Attr) : Except xml.Abort Tile :=
  if a.Name.Local = ascii "id" then xml.intAttr a fun n => { v with ID := n }
  else if a.Name.Local = ascii "terrain" then
    match xml.unmarshalAttr (v.Terrain.UnmarshalXMLAttr a) with
    | .error e => .error e
    | .ok t => .ok { v with Terrain := t }
  else .ok v

/-- Unmarshalling a `tile` element into a `Tile`; its sub-elements are skipped. -/
def Tile.unmarshal (v : Tile) (start : xml.StartElement) (_content : List xml.Node) :
    Except xml.Abort Tile :=
  match xml.checkName (ascii "tile") start with
  | .error e => .error e
  | .ok _ => xml.forEach Tile.attr { v with XMLName := start.Name } start.Attr

/-- One attribute of a `tileset` start tag, matched against the `,attr` fields of `TileSet`. -/
def TileSet.attr (v : TileSet) (a : xml.Attr) : Except xml.Abort TileSet :=
  if a.Name.Local = ascii "firstgid" then xml.intAttr a fun n => { v with FirstGlobalID := n }
  else if a.Name.Local = ascii "source" then .ok { v with Source := a.Value }
  else if a.Name.Local = ascii "name" then .ok { v with Name := a.Value }
  else if a.Name.Local = ascii "tilewidth" then xml.intAttr a fun n => { v with TileWidth := n }
  else if a.Name.Local = ascii "tileheight" then
    xml.intAttr a fun n => { v with TileHeight := n }
  else if a.Name.Local = ascii "spacing" then xml.intAttr a fun n => { v with Spacing := n }
  else if a.Name.Local = ascii "margin" then xml.intAttr a fun n => { v with Margin := n }
  else if a.Name.Local = ascii "tilecount" then xml.intAttr a fun n => { v with TileCount := n }
  else if a.Name.Local = ascii "columns" then xml.intAttr a fun n => { v with Columns := n }
  else .ok v

/-- One node of the content of a `tileset` element: `image` and `terraintypes` elements are
unmarshalled into the struct fields, a `tile` element into a new last entry of `Tiles`;
anything else is skipped. -/
def TileSet.child (v : TileSet) : xml.Node → Except xml.Abort TileSet
  | .CharData _ => .ok v
  | .Element start content =>
    if start.Name.Local = ascii "image" then
      match Image.unmarshal v.Image start content with
      | .error e => .error e
      | .ok i => .ok { v with Image := i }
    else if start.Name.Local = ascii "terraintypes" then
      match TerrainTypes.unmarshal v.TerrainTypes start content with
      | .error e => .error e
      | .ok t => .ok { v with TerrainTypes := t }
    else if start.Name.Local = ascii "tile" then
      match Tile.unmarshal Tile.zero start content with
      | .error e => .error e
      | .ok t => .ok { v with Tiles := v.Tiles ++ [t] }
    else .ok v

/-- Unmarshalling a `tileset` element into a `TileSet`: the name check, the attributes, then
the content. -/
def TileSet.unmarshal (v : TileSet) (start : xml.StartElement) (content : List xml.Node) :
    Except xml.Abort TileSet :=
  match xml.checkName (ascii "tileset") start with
  | .error e => .error e
  | .ok _ =>
    match xml.forEach TileSet.attr { v with XMLName := start.Name } start.Attr with
    | .error e => .error e
    | .ok w => xml.forEach TileSet.child w content

/-- One attribute of a `data` start tag, matched against the `,attr` fields of `LayerData`. -/
def LayerData.attr (v : LayerData) (a : xml.Attr) : Except xml.Abort LayerData :=
  if a.Name.Local = ascii "encoding" then .ok { v with Encoding := a.Value }
  else if a.Name.Local = ascii "compression" then .ok { v with Compression := a.Value }
  else .ok v

/-- Unmarshalling a `data` element into a `LayerData`: the attributes, then the character data
directly inside the element is stored in the `,chardata` field; sub-elements are skipped. -/
def LayerData.unmarshal (v : LayerData) (start : xml.StartElement) (content : List xml.Node) :
    Except xml.Abort LayerData :=
  match xml.checkName (ascii "data") start with
  | .error e => .error e
  | .ok _ =>
    match xml.forEach LayerData.attr { v with XMLName := start.Name } start.Attr with
    | .error e => .error e
    | .ok w => .ok { w with Text := xml.charData content }

/-- One attribute of a `layer` start tag, matched against the `,attr` fields of `Layer`. -/
def Layer.attr (v : Layer) (a : xml.Attr) : Except xml.Abort Layer :=
  if a.Name.Local = ascii "name" then .ok { v with Name := a.Value }
  else if a.Name.Local = ascii "width" then xml.intAttr a fun n => { v with Width := n }
  else if a.Name.Local = ascii "height" then xml.intAttr a fun n => { v with Height := n }
  else .ok v

/-- One node of the content of a `layer` element: a `data` element is unmarshalled into the
`Data` field; anything else is skipped. -/
def Layer.child (v : Layer) : xml.Node → Except xml.Abort Layer
  | .CharData _ => .ok v
  | .Element start content =>
    if start.Name.Local = ascii "data" then
      match LayerData.unmarshal v.Data start content with
      | .error e => .error e
      | .ok d => .ok { v with Data := d }
    else .ok v

/-- Unmarshalling a `layer` element into a `Layer`. -/
def Layer.unmarshal (v : Layer) (start : xml.StartElement) (content : List xml.Node) :
    Except xml.Abort Layer :=
  match xml.checkName (ascii "layer") start with
  | .error e => .error e
  | .ok _ =>
    match xml.forEach Layer.attr { v with XMLName := start.Name } start.Attr with
    | .error e => .error e
    | .ok w => xml.forEach Layer.child w content

/-- One attribute of the `map` start tag, matched against the `,attr` fields of `Map`; the
`orientation`, `renderorder` and `backgroundcolor` attributes go to the `UnmarshalXMLAttr`
method of the field. An attribute that is not on the start tag reaches no field. -/
def Map.attr (v : Map) (a : xml.Attr) : Except xml.Abort Map :=
  if a.Name.Local = ascii "version" then .ok { v with Version := a.Value }
  else if a.Name.Local = ascii "orientation" then
    match xml.unmarshalAttr (Orientation.UnmarshalXMLAttr v.Orientation a) with
    | .error e => .error e
    | .ok o => .ok { v with Orientation := o }
  else if a.Name.Local = ascii "renderorder" then
    match xml.unmarshalAttr (RenderOrder.UnmarshalXMLAttr v.RenderOrder a) with
    | .error e => .error e
    | .ok o => .ok { v with RenderOrder := o }
  else if a.Name.Local = ascii "width" then xml.intAttr a fun n => { v with Width := n }
  else if a.Name.Local = ascii "height" then xml.intAttr a fun n => { v with Height := n }
  else if a.Name.Local = ascii "tilewidth" then xml.intAttr a fun n => { v with TileWidth := n }
  else if a.Name.Local = ascii "tileheight" then
    xml.intAttr a fun n => { v with TileHeight := n }
  else if a.Name.Local = ascii "hexsidelength" then
    xml.intAttr a fun n => { v with HexSideLength := n }
  else if a.Name.Local = ascii "staggeraxis" then
    xml.intAttr a fun n => { v with StaggerAxis := n }
  else if a.Name.Local = ascii "staggerindex" then
    xml.intAttr a fun n => { v with StaggerIndex := n }
  else if a.Name.Local = ascii "backgroundcolor" then
    match xml.unmarshalAttr (v.BackgroundColor.UnmarshalXMLAttr a) with
    | .error e => .error e
    | .ok c => .ok { v with BackgroundColor := c }
  else if a.Name.Local = ascii "nextobjectid" then
    xml.intAttr a fun n => { v with NextObjectID := n }
  else .ok v

/-- One node of the content of the `map` element: a `tileset` element is unmarshalled into a
new last entry of `TileSets`, a `layer` element into a new last entry of `Layers`; anything
else is skipped. -/
def Map.child (v : Map) : xml.Node → Except xml.Abort Map
  | .CharData _ => .ok v
  | .Element start content =>
    if start.Name.Local = ascii "tileset" then
      match TileSet.unmarshal TileSet.zero start content with
      | .error e => .error e
      | .ok t => .ok { v with TileSets := v.TileSets ++ [t] }
    else if start.Name.Local = ascii "layer" then
      match Layer.unmarshal Layer.zero start content with
      | .error e => .error e
      | .ok l => .ok { v with Layers := v.Layers ++ [l] }
    else .ok v

/-- Unmarshalling the root element into a `Map`: the element must be named `map`. -/
def Map.unmarshal (v : Map) (start : xml.StartElement) (content : List xml.Node) :
    Except xml.Abort Map :=
  match xml.checkName (ascii "map") start with
  | .error e => .error e
  | .ok _ =>
    match xml.forEach Map.attr { v with XMLName := start.Name } start.Attr with
    | .error e => .error e
    | .ok w => xml.forEach Map.child w content

/-- Function `func Read(r io.Reader) (m Map, err error)` (tiled.go:12-15) on a well-formed
document with root element `start` and root content `content`: `Decode` unmarshals the root
element into the zero `Map`. The result is the `Map` when `err` is `nil`, and what ended the
call otherwise (the partly filled `Map` that Go returns next to an error is not kept). -/
def Read (start : xml.StartElement) (content : List xml.Node) : Except xml.Abort Map :=
  Map.unmarshal Map.zero start content

/-! ## `encoding/xml`: from the bytes of the input to the element tree

The tokenizer of `encoding/xml` turns the bytes of a document into the tokens that `Decode`
unmarshals. Its handling of tags is not modelled: a document is given as the tree of its root
element, in which every attribute value, every run of character data between two pieces of
markup, every CDATA section and every comment holds the bytes of the input as they are
written there (`xml.Raw`). What is modelled is what the tokenizer does with those bytes
(`Decoder.text` in strict mode without custom entities, and the comment check): it expands
entity references, rewrites CR and CR LF to LF, and rejects bytes that are not the UTF-8
encoding of XML characters. Processing instructions and directives inside the root element are
left out. -/

namespace utf8

/-- Go `utf8.AppendRune`, as in `string(rune(r))`: the UTF-8 encoding of the code point `r`,
and that of U+FFFD for a surrogate or a value above U+10FFFF. -/
def EncodeRune (r : Nat) : List Nat :=
  if r < 0x80 then [r]
  else if r < 0x800 then [0xC0 ||| (r >>> 6), 0x80 ||| (r &&& 0x3F)]
  else if (0xD800 ≤ r ∧ r ≤ 0xDFFF) ∨ 0x10FFFF < r then [0xEF, 0xBF, 0xBD]
  else if r < 0x10000 then
    [0xE0 ||| (r >>> 12), 0x80 ||| ((r >>> 6) &&& 0x3F), 0x80 ||| (r &&& 0x3F)]
  else
    [0xF0 ||| (r >>> 18), 0x80 ||| ((r >>> 12) &&& 0x3F), 0x80 ||| ((r >>> 6) &&& 0x3F),
      0x80 ||| (r &&& 0x3F)]

end utf8

/-- The bytes of a string literal of a Go source file: the UTF-8 encoding of its characters. -/
def utf8Chars (cs : List Char) : GoString := cs.flatMap fun c => utf8.EncodeRune c.toNat

namespace xml

/-- Go `isInCharacterRange`: the code points XML allows in a document. -/
def isInCharacterRange (r : Nat) : Bool :=
  r = 0x09 || r = 0x0A || r = 0x0D || (0x20 ≤ r && r ≤ 0xD7FF) || (0xE000 ≤ r && r ≤ 0xFFFD) ||
    (0x10000 ≤ r && r ≤ 0x10FFFF)

/-- A continuation byte of UTF-8. -/
def isCont (b : Nat) : Bool := 0x80 ≤ b && b ≤ 0xBF

/-- The last loop of `Decoder.text`: every rune of the data decodes (`utf8.DecodeRune` does
not return `RuneError` with size 1) and is in the character range. The second byte of a
three- or four-byte rune is bounded as in Go's `acceptRanges`. -/
def validRunes : List Nat → Bool
  | [] => true
  | b0 :: rest =>
    if b0 < 0x80 then
      isInCharacterRange b0 && validRunes rest
    else if 0xC2 ≤ b0 ∧ b0 ≤ 0xDF then
      match rest with
      | b1 :: r => isCont b1 && validRunes r
      | [] => false
    else if 0xE0 ≤ b0 ∧ b0 ≤ 0xEF then
      match rest with
      | b1 :: b2 :: r =>
        (if b0 = 0xE0 then 0xA0 ≤ b1 && b1 ≤ 0xBF
          else if b0 = 0xED then 0x80 ≤ b1 && b1 ≤ 0x9F
          else isCont b1) &&
        isCont b2 &&
        isInCharacterRange (((b0 &&& 0x0F) <<< 12) ||| ((b1 &&& 0x3F) <<< 6) ||| (b2 &&& 0x3F)) &&
        validRunes r
      | _ => false
    else if 0xF0 ≤ b0 ∧ b0 ≤ 0xF4 then
      match rest with
      | b1 :: b2 :: b3 :: r =>
        (if b0 = 0xF0 then 0x90 ≤ b1 && b1 ≤ 0xBF
          else if b0 = 0xF4 then 0x80 ≤ b1 && b1 ≤ 0x8F
          else isCont b1) &&
        isCont b2 && isCont b3 && validRunes r
      | _ => false
    else
      false

/-- The value of a run of digits in the given base, as `strconv.ParseUint` reads it; `none`
when a byte is not a digit of the base. -/
def digitsValue (base : Nat) : Nat → List Nat → Option Nat
  | v, [] => some v
  | v, c :: cs =>
    if 48 ≤ c ∧ c ≤ 57 then digitsValue base (v * base + (c - 48)) cs
    else if base = 16 ∧ 97 ≤ c ∧ c ≤ 102 then digitsValue base (v * base + (c - 97 + 10)) cs
    else if base = 16 ∧ 65 ≤ c ∧ c ≤ 70 then digitsValue base (v * base + (c - 65 + 10)) cs
    else none

/-- The text that `Decoder.text` puts in place of the entity reference `&ent;`: one of the
five predefined entities, or a character reference `#digits` or `#xhexdigits` of a value up to
`unicode.MaxRune`; `none` for anything else, which strict mode reports as a syntax error. -/
def entityText (ent : GoString) : Option GoString :=
  if ent = ascii "lt" then some (ascii "<")
  else if ent = ascii "gt" then some (ascii ">")
  else if ent = ascii "amp" then some (ascii "&")
  else if ent = ascii "apos" then some (ascii "'")
  else if ent = ascii "quot" then some (ascii "\"")
  else
    match ent with
    | 35 :: 120 :: ds =>
      if ds.length = 0 then none
      else
        match digitsValue 16 0 ds with
        | none => none
        | some v => if v ≤ 0x10FFFF then some (utf8.EncodeRune v) else none
    | 35 :: ds =>
      if ds.length = 0 then none
      else
        match digitsValue 10 0 ds with
        | none => none
        | some v => if v ≤ 0x10FFFF then some (utf8.EncodeRune v) else none
    | _ => none

/-- The main loop of `Decoder.text` over the bytes of one attribute value (`quoted`), one run
of character data, or one CDATA section (`cdata`). `ent` holds the bytes read since an `&`,
`b0` and `b1` are the two bytes read before. Outside a CDATA section `&` starts an entity
reference that ends with the next `;`. The sequence `]]>` is an error in character data and
ends a CDATA section, and `<` ends a run of character data and is an error in an attribute
value, so neither occurs inside the bytes of one of them. CR becomes LF and the LF after a CR
is dropped. `none` is a syntax error. -/
def textLoop (cdata : Bool) : Option GoString → Nat → Nat → GoString → Option GoString
  | none, _, _, [] => some []
  | some _, _, _, [] => none
  | some ent, _, _, b :: rest =>
    if b = 59 then
      match entityText ent with
      | none => none
      | some t =>
        match textLoop cdata none 0 0 rest with
        | none => none
        | some out => some (t ++ out)
    else
      textLoop cdata (some (ent ++ [b])) 0 0 rest
  | none, b0, b1, b :: rest =>
    if b0 = 93 ∧ b1 = 93 ∧ b = 62 then none
    else if b = 60 ∧ cdata = false then none
    else if b = 38 ∧ cdata = false then textLoop cdata (some []) 0 0 rest
    else
      match textLoop cdata none b1 b rest with
      | none => none
      | some out =>
        some ((if b = 13 then [10] else if b1 = 13 ∧ b = 10 then [] else [b]) ++ out)

/-- Go `(d *Decoder) text(quote, cdata)` on the bytes of one attribute value, one run of
character data or one CDATA section: the data the tokenizer delivers for them, `none` when it
reports a syntax error. -/
def text (cdata : Bool) (raw : GoString) : Option GoString :=
  match textLoop cdata none 0 0 raw with
  | none => none
  | some data => if validRunes data then some data else none

/-- The comment loop of the tokenizer accepts the bytes between `<!--` and `-->` when `--`
occurs neither in them nor across their end. -/
def commentOK : List Nat → Bool
  | [] => true
  | [a] => a ≠ 45
  | a :: b :: rest => !(a = 45 && b = 45) && commentOK (b :: rest)

/-- An attribute as written in a start tag: its name and the bytes between its quotes. -/
structure RawAttr where
  Name : Name
  Value : GoString

/-- A start tag as written in the input. -/
structure RawStart where
  Name : Name
  Attr : List RawAttr

/-- The content of the root element as written in the input: an element with its start tag
and its content, a maximal run of character data, a CDATA section (the bytes between
`<![CDATA[` and `]]>`), or a comment (the bytes between `<!--` and `-->`). -/
inductive Raw where
  | Element (start : RawStart) (content : List Raw)
  | Text (raw : GoString)
  | CDATA (raw : GoString)
  | Comment (raw : GoString)

/-- The attributes of a start tag as the tokenizer delivers them. -/
def attrTokens : List RawAttr → Option (List Attr)
  | [] => some []
  | a :: rest =>
    match text false a.Value with
    | none => none
    | some v =>
      match attrTokens rest with
      | none => none
      | some as => some ({ Name := a.Name, Value := v } :: as)

/-- The `StartElement` token of a start tag. -/
def startToken (start : RawStart) : Option StartElement :=
  match attrTokens start.Attr with
  | none => none
  | some as => some { Name := start.Name, Attr := as }

mutual

/-- The tokens of one piece of content, as far as `Decode` looks at them: an element, the
character data of a run or of a CDATA section, nothing for a comment. -/
def Raw.token : Raw → Option (List Node)
  | .Element start content =>
    match startToken start with
    | none => none
    | some s =>
      match Raw.tokens content with
      | none => none
      | some ns => some [.Element s ns]
  | .Text raw =>
    match text false raw with
    | none => none
    | some data => some [.CharData data]
  | .CDATA raw =>
    match text true raw with
    | none => none
    | some data => some [.CharData data]
  | .Comment raw => if commentOK raw then some [] else none
termination_by structural r => r

/-- The tokens of the content of an element, in document order. -/
def Raw.tokens : List Raw → Option (List Node)
  | [] => some []
  | r :: rest =>
    match Raw.token r with
    | none => none
    | some ns =>
      match Raw.tokens rest with
      | none => none
      | some ms => some (ns ++ ms)
termination_by structural l => l

end

end xml

/-- Function `func Read(r io.Reader) (m Map, err error)` (tiled.go:12-15) on the bytes of a
document with root start tag `start` and root content `content`: the `Map` when `err` is
`nil`, and `none` when `Read` returns an error, from the tokenizer or from the
unmarshalling. -/
def ReadDocument (start : xml.RawStart) (content : List xml.Raw) : Option Map :=
  match xml.startToken start with
  | none => none
  | some s =>
    match xml.Raw.tokens content with
    | none => none
    | some nodes =>
      match Read s nodes with
      | .ok m => some m
      | .error _ => none

/-! ## Notions of the specification -/

/-- A hexadecimal digit: one of the bytes of `0123456789abcdefABCDEF`. -/
def isHexDigit (b : Nat) : Prop := b ∈ ascii "0123456789abcdefABCDEF"

instance (b : Nat) : Decidable (isHexDigit b) := by unfold isHexDigit; infer_instance

/-- A field of a terrain list and the corner it stands for: the empty field stands for
`NoTerrain`, a non-empty field for the integer `strconv.Atoi` parses it to. -/
def fieldValue (f : GoString) (n : Int) : Prop :=
  (f = [] ∧ n = -1) ∨ (f ≠ [] ∧ strconv.Atoi f = .ok n)

/-- The error `strconv.Atoi` returns on a non-empty field, if any. -/
def fieldError (f : GoString) : Option Error :=
  if f = [] then none
  else
    match strconv.Atoi f with
    | .ok _ => none
    | .error e => some e

/-- The error of the first non-empty field, in order, that `strconv.Atoi` rejects. -/
def firstFieldError : List GoString → Option Error
  | [] => none
  | f :: rest =>
    match fieldError f with
    | some e => some e
    | none => firstFieldError rest

namespace xml

/-- The elements with local name `name` directly inside `content`, in document order. -/
def elements (name : GoString) : List Node → List (StartElement × List Node)
  | [] => []
  | .CharData _ :: rest => elements name rest
  | .Element start content :: rest =>
    if start.Name.Local = name then (start, content) :: elements name rest
    else elements name rest

/-- The last attribute with local name `name` in a list of attributes. -/
def lastAttr (name : GoString) : List Attr → Option Attr
  | [] => none
  | a :: rest =>
    match lastAttr name rest with
    | some b => some b
    | none => if a.Name.Local = name then some a else none

end xml

/-- A `backgroundcolor` value that `Color.UnmarshalXMLAttr` rejects: it is not empty, and
without its first byte it has odd length or contains a byte that is not a hex digit. -/
def rejectedColor (value : GoString) : Prop :=
  value ≠ [] ∧ ((value.drop 1).length % 2 = 1 ∨ ∃ b ∈ value.drop 1, ¬ isHexDigit b)

/-- A `terrain` value that `TerrainList.UnmarshalXMLAttr` rejects: it does not have four
fields, or it has a non-empty field that `strconv.Atoi` rejects. -/
def rejectedTerrain (value : GoString) : Prop :=
  (strings.Split value 44).length ≠ 4 ∨
    ∃ f ∈ strings.Split value 44, f ≠ [] ∧ ∃ e, strconv.Atoi f = .error e

/-- What a `tile` start tag says of the `Terrain` field of the `Tile` decoded from it: `Valid`
holds exactly when the tag carries a `terrain` attribute, and then each of the four fields of
the (last) `terrain` attribute stands for the corner at its position. -/
def tileTerrain (start : xml.StartElement) (tile : Tile) : Prop :=
  (tile.Terrain.Valid = true ↔ ∃ a ∈ start.Attr, a.Name.Local = ascii "terrain") ∧
  ∀ a, xml.lastAttr (ascii "terrain") start.Attr = some a →
    List.Forall₂ fieldValue (strings.Split a.Value 44) tile.Terrain.Corners.1

/-- A field of a terrain list and the corner it stands for, with the sign: the corner is the
value of the field, and for a field that does not begin with `-` it is -1 exactly when the
field is empty and non-negative otherwise. -/
def cornerOfField (f : GoString) (c : Int) : Prop :=
  fieldValue f c ∧ (f.head? ≠ some 45 → (f = [] ∧ c = -1) ∨ (f ≠ [] ∧ 0 ≤ c))

/-- The value of the attribute with local name `name` of a start tag (of the last one, should
the tag carry several), and the empty string when the tag has none. -/
def xml.attrValue (name : GoString) (start : xml.StartElement) : GoString :=
  match xml.lastAttr name start.Attr with
  | some a => a.Value
  | none => []

namespace xml

/-- The last entry of a list. -/
def lastOf {α : Type} : List α → Option α
  | [] => none
  | a :: rest =>
    match lastOf rest with
    | some b => some b
    | none => some a

/-- The last attribute with local name `name` that any of the given elements carries, the
elements and the attributes of each taken in document order. -/
def lastAttrIn (name : GoString) : List (StartElement × List Node) → Option Attr
  | [] => none
  | e :: rest =>
    match lastAttrIn name rest with
    | some a => some a
    | none => lastAttr name e.1.Attr

/-- The elements with local name `name` directly inside `content`, as written in the input, in
document order. -/
def rawElements (name : GoString) : List Raw → List (RawStart × List Raw)
  | [] => []
  | .Element start content :: rest =>
    if start.Name.Local = name then (start, content) :: rawElements name rest
    else rawElements name rest
  | .Text _ :: rest => rawElements name rest
  | .CDATA _ :: rest => rawElements name rest
  | .Comment _ :: rest => rawElements name rest

/-- The last attribute with local name `name` in the attributes of a start tag as written. -/
def lastRawAttr (name : GoString) : List RawAttr → Option RawAttr
  | [] => none
  | a :: rest =>
    match lastRawAttr name rest with
    | some b => some b
    | none => if a.Name.Local = name then some a else none

/-- The last attribute with local name `name`, as written, that any of the given elements
carries, the elements and the attributes of each taken in document order. -/
def lastRawAttrIn (name : GoString) : List (RawStart × List Raw) → Option RawAttr
  | [] => none
  | e :: rest =>
    match lastRawAttrIn name rest with
    | some a => some a
    | none => lastRawAttr name e.1.Attr

/-- The text content of an element as the tokenizer delivers it: the data of the runs of
character data and of the CDATA sections directly inside the element, in document order;
comments and sub-elements contribute nothing. -/
def textContent : List Raw → GoString
  | [] => []
  | .Text raw :: rest => (text false raw).getD [] ++ textContent rest
  | .CDATA raw :: rest => (text true raw).getD [] ++ textContent rest
  | .Element _ _ :: rest => textContent rest
  | .Comment _ :: rest => textContent rest

/-- Bytes without `&` and without CR: the tokenizer has nothing to expand or rewrite. -/
def plain (raw : GoString) : Prop := 38 ∉ raw ∧ 13 ∉ raw

end xml

/-- What the `data` elements of a `layer` element of the element tree say of the `Data` of the
`Layer` decoded from it. -/
def tokenLayerData (e : xml.StartElement × List xml.Node) (l : Layer) : Prop :=
  l.Data.Text = (match xml.lastOf (xml.elements (ascii "data") e.2) with
    | none => []
    | some d => xml.charData d.2) ∧
  l.Data.Encoding = (match xml.lastAttrIn (ascii "encoding") (xml.elements (ascii "data") e.2) with
    | none => []
    | some a => a.Value) ∧
  l.Data.Compression =
    (match xml.lastAttrIn (ascii "compression") (xml.elements (ascii "data") e.2) with
    | none => []
    | some a => a.Value)

/-- What a `layer` element of the input says of the `Data` of the `Layer` decoded from it.
`Text` is the text content of the last `data` element of the layer as the tokenizer delivers
it, and is empty for a layer without `data` element; when that content is one run of character
data without `&` and CR, `Text` is that run byte for byte. `Encoding` and `Compression` are
what the tokenizer delivers for the last `encoding` and the last `compression` attribute that
a `data` element of the layer carries, and are empty when there is none; when the value as
written has no `&` and no CR, the field is that value byte for byte. -/
def rawLayerData (e : xml.RawStart × List xml.Raw) (l : Layer) : Prop :=
  (match xml.lastOf (xml.rawElements (ascii "data") e.2) with
    | none => l.Data.Text = []
    | some d => l.Data.Text = xml.textContent d.2 ∧
        ∀ raw, d.2 = [.Text raw] → xml.plain raw → l.Data.Text = raw) ∧
  (match xml.lastRawAttrIn (ascii "encoding") (xml.rawElements (ascii "data") e.2) with
    | none => l.Data.Encoding = []
    | some a => xml.text false a.Value = some l.Data.Encoding ∧
        (xml.plain a.Value → l.Data.Encoding = a.Value)) ∧
  (match xml.lastRawAttrIn (ascii "compression") (xml.rawElements (ascii "data") e.2) with
    | none => l.Data.Compression = []
    | some a => xml.text false a.Value = some l.Data.Compression ∧
        (xml.plain a.Value → l.Data.Compression = a.Value))

/-! ## Sample documents -/

/-- The start tag of the root of a minimal document:
`<map version="1.0" orientation="orthogonal" width="1" height="1" tilewidth="16"
tileheight="16">`. -/
def minimalStart : xml.StartElement :=
  { Name := ⟨[], ascii "map"⟩,
    Attr := [⟨⟨[], ascii "version"⟩, ascii "1.0"⟩,
      ⟨⟨[], ascii "orientation"⟩, ascii "orthogonal"⟩,
      ⟨⟨[], ascii "width"⟩, ascii "1"⟩, ⟨⟨[], ascii "height"⟩, ascii "1"⟩,
      ⟨⟨[], ascii "tilewidth"⟩, ascii "16"⟩, ⟨⟨[], ascii "tileheight"⟩, ascii "16"⟩] }

/-- The content of the root of the minimal document: one tileset with one tile that has
`terrain="0,1,2,3"`, and one layer with CSV text and no compression. -/
def minimalContent : List xml.Node :=
  [.Element ⟨⟨[], ascii "tileset"⟩,
      [⟨⟨[], ascii "firstgid"⟩, ascii "1"⟩, ⟨⟨[], ascii "name"⟩, ascii "ground"⟩]⟩
      [.Element ⟨⟨[], ascii "tile"⟩,
        [⟨⟨[], ascii "id"⟩, ascii "0"⟩, ⟨⟨[], ascii "terrain"⟩, ascii "0,1,2,3"⟩]⟩ []],
   .Element ⟨⟨[], ascii "layer"⟩,
      [⟨⟨[], ascii "name"⟩, ascii "l"⟩, ⟨⟨[], ascii "width"⟩, ascii "1"⟩,
        ⟨⟨[], ascii "height"⟩, ascii "1"⟩]⟩
      [.Element ⟨⟨[], ascii "data"⟩, [⟨⟨[], ascii "encoding"⟩, ascii "csv"⟩]⟩
        [.CharData (ascii "1")]]]

/-- The start tag of the root of the minimal document as written:
`<map version="1.0" orientation="orthogonal" width="1" height="1" tilewidth="16"
tileheight="16">`. -/
def writtenStart : xml.RawStart :=
  { Name := ⟨[], ascii "map"⟩,
    Attr := [⟨⟨[], ascii "version"⟩, ascii "1.0"⟩,
      ⟨⟨[], ascii "orientation"⟩, ascii "orthogonal"⟩,
      ⟨⟨[], ascii "width"⟩, ascii "1"⟩, ⟨⟨[], ascii "height"⟩, ascii "1"⟩,
      ⟨⟨[], ascii "tilewidth"⟩, ascii "16"⟩, ⟨⟨[], ascii "tileheight"⟩, ascii "16"⟩] }

/-- The content of the root of a document as written, with one layer whose `data` element
has the attribute `encoding="csv"` and the content `text`:
`<layer name="l" width="2" height="2"><data encoding="csv">text</data></layer>`. -/
def writtenLayer (text : List xml.Raw) : List xml.Raw :=
  [.Element ⟨⟨[], ascii "layer"⟩,
      [⟨⟨[], ascii "name"⟩, ascii "l"⟩, ⟨⟨[], ascii "width"⟩, ascii "2"⟩,
        ⟨⟨[], ascii "height"⟩, ascii "2"⟩]⟩
      [.Element ⟨⟨[], ascii "data"⟩, [⟨⟨[], ascii "encoding"⟩, ascii "csv"⟩]⟩ text]]

/-! ## Lemmas on the library functions -/

theorem ascii_hexDigits :
    ascii "0123456789abcdefABCDEF" =
      [48, 49, 50, 51, 52, 53, 54, 55, 56, 57, 97, 98, 99, 100, 101, 102, 65, 66, 67, 68, 69,
        70] := by
  decide

theorem isHexDigit_iff (b : Nat) :
    isHexDigit b ↔ (48 ≤ b ∧ b ≤ 57) ∨ (97 ≤ b ∧ b ≤ 102) ∨ (65 ≤ b ∧ b ≤ 70) := by
  unfold isHexDigit
  rw [ascii_hexDigits]
  simp only [List.mem_cons, List.mem_singleton, List.not_mem_nil, or_false]
  omega

theorem hex_fromHexChar_eq_none_iff (b : Nat) : hex.fromHexChar b = none ↔ ¬ isHexDigit b := by
  rw [isHexDigit_iff]
  unfold hex.fromHexChar
  split_ifs <;> simp <;> omega

/-- Induction on a list two elements at a time. -/
theorem pair_induction {α : Type} {P : List α → Prop} (h0 : P []) (h1 : ∀ a, P [a])
    (h2 : ∀ a b l, P l → P (a :: b :: l)) : ∀ l, P l
  | [] => h0
  | [a] => h1 a
  | a :: b :: l => h2 a b l (pair_induction h0 h1 h2 l)

/-- `hex.Decode` succeeds exactly on the strings of even length made of hex digits. -/
theorem hex_Decode_ok_iff (s : List Nat) :
    (∃ bs, hex.Decode s = .ok bs) ↔ (s.length % 2 = 0 ∧ ∀ b ∈ s, isHexDigit b) := by
  induction s using pair_induction with
  | h0 => simp [hex.Decode]
  | h1 p => simp [hex.Decode]; split_ifs <;> simp
  | h2 p q rest ih =>
    have hlen : (p :: q :: rest).length % 2 = rest.length % 2 := by
      simp only [List.length_cons]; omega
    rw [hlen]
    simp only [hex.Decode, List.mem_cons, forall_eq_or_imp]
    cases hp : hex.fromHexChar p with
    | none =>
      have := (hex_fromHexChar_eq_none_iff p).1 hp
      simp [this]
    | some a =>
      have hp2 : isHexDigit p := by
        by_contra h; rw [(hex_fromHexChar_eq_none_iff p).2 h] at hp; cases hp
      cases hq : hex.fromHexChar q with
      | none =>
        have := (hex_fromHexChar_eq_none_iff q).1 hq
        simp [this]
      | some b =>
        have hq2 : isHexDigit q := by
          by_contra h; rw [(hex_fromHexChar_eq_none_iff q).2 h] at hq; cases hq
        cases hr : hex.Decode rest with
        | error e =>
          rw [hr] at ih
          have : ¬ (rest.length % 2 = 0 ∧ ∀ b ∈ rest, isHexDigit b) := by
            rw [← ih]; simp
          simp only [hp2, hq2, true_and]
          constructor
          · rintro ⟨bs, h⟩; cases h
          · intro h; exact absurd h this
        | ok bs =>
          rw [hr] at ih
          have : rest.length % 2 = 0 ∧ ∀ b ∈ rest, isHexDigit b := ih.1 ⟨bs, rfl⟩
          simp only [hp2, hq2, this.1, true_and]
          exact ⟨fun _ => this.2, fun _ => ⟨_, rfl⟩⟩

/-- A successful `hex.Decode` yields one byte for every two digits. -/
theorem hex_Decode_length (s bs : List Nat) (h : hex.Decode s = .ok bs) :
    2 * bs.length = s.length := by
  induction s using pair_induction generalizing bs with
  | h0 => simp [hex.Decode] at h; subst h; rfl
  | h1 p => simp [hex.Decode] at h; split_ifs at h
  | h2 p q rest ih =>
    simp only [hex.Decode] at h
    cases hp : hex.fromHexChar p with
    | none => rw [hp] at h; cases h
    | some a =>
      cases hq : hex.fromHexChar q with
      | none => rw [hp, hq] at h; cases h
      | some b =>
        cases hr : hex.Decode rest with
        | error e => rw [hp, hq, hr] at h; cases h
        | ok cs =>
          rw [hp, hq, hr] at h
          simp only [Except.ok.injEq] at h
          subst h
          have := ih cs hr
          simp only [List.length_cons]
          omega

theorem index_isSome (b : List Nat) (i : Int) (h0 : 0 ≤ i) (h1 : i < b.length) :
    ∃ x, index b i = some x := by
  unfold index
  have hlt : i.toNat < b.length := by omega
  refine ⟨b[i.toNat], ?_⟩
  rw [if_neg (by omega)]
  exact List.getElem?_eq_getElem hlt

/-- The channel assignments never index out of range. -/
theorem Color_setChannels_isSome (c : Color) (bytes : List Nat) :
    ∃ c', c.setChannels bytes = some c' := by
  unfold Color.setChannels
  simp only []
  by_cases h0 : (bytes.length : Int) - 1 > 0
  · obtain ⟨x0, hx0⟩ := index_isSome bytes ((bytes.length : Int) - 1) (by omega) (by omega)
    by_cases h1 : (bytes.length : Int) - 1 > 1
    · obtain ⟨x1, hx1⟩ := index_isSome bytes ((bytes.length : Int) - 1 - 1) (by omega) (by omega)
      by_cases h2 : (bytes.length : Int) - 1 > 2
      · obtain ⟨x2, hx2⟩ :=
          index_isSome bytes ((bytes.length : Int) - 1 - 2) (by omega) (by omega)
        by_cases h3 : (bytes.length : Int) - 1 > 3
        · obtain ⟨x3, hx3⟩ :=
            index_isSome bytes ((bytes.length : Int) - 1 - 3) (by omega) (by omega)
          simp [h0, h1, h2, h3, hx0, hx1, hx2, hx3]
        · simp [h0, h1, h2, h3, hx0, hx1, hx2]
      · have h3 : ¬ (bytes.length : Int) - 1 > 3 := by omega
        simp [h0, h1, h2, h3, hx0, hx1]
    · have h2 : ¬ (bytes.length : Int) - 1 > 2 := by omega
      have h3 : ¬ (bytes.length : Int) - 1 > 3 := by omega
      simp [h0, h1, h2, h3, hx0]
  · have h1 : ¬ (bytes.length : Int) - 1 > 1 := by omega
    have h2 : ¬ (bytes.length : Int) - 1 > 2 := by omega
    have h3 : ¬ (bytes.length : Int) - 1 > 3 := by omega
    simp [h0, h1, h2, h3]

/-- What `Color.UnmarshalXMLAttr` returns on a non-empty value, by the outcome of the hex
decoding of the value without its first byte. -/
theorem Color_UnmarshalXMLAttr_cases (c : Color) (attr : xml.Attr) (h : attr.Value ≠ []) :
    (∃ e, hex.Decode (attr.Value.drop 1) = .error e ∧
        c.UnmarshalXMLAttr attr = some (c, some e)) ∨
    (∃ bs c', hex.Decode (attr.Value.drop 1) = .ok bs ∧ c.setChannels bs = some c' ∧
        c.UnmarshalXMLAttr attr = some (c', none)) := by
  have hlen : attr.Value.length ≠ 0 := fun h0 => h (List.length_eq_zero.1 h0)
  have hle : 1 ≤ attr.Value.length := Nat.pos_of_ne_zero hlen
  unfold Color.UnmarshalXMLAttr
  rw [if_neg hlen]
  simp only [sliceFrom, if_pos hle, hex.DecodeString]
  cases hd : hex.Decode (attr.Value.drop 1) with
  | error e => exact Or.inl ⟨e, rfl, rfl⟩
  | ok bs =>
    obtain ⟨c', hc'⟩ := Color_setChannels_isSome c bs
    exact Or.inr ⟨bs, c', rfl, hc', by simp [hc']⟩

theorem strings_Split_ne_nil (s : GoString) (sep : Nat) : strings.Split s sep ≠ [] := by
  cases s with
  | nil => simp [strings.Split]
  | cons c cs =>
    simp only [strings.Split]
    split_ifs
    · simp
    · split <;> simp

/-- A string without the separator is its own single field. -/
theorem strings_Split_of_not_mem (f : GoString) (sep : Nat) (h : sep ∉ f) :
    strings.Split f sep = [f] := by
  induction f with
  | nil => rfl
  | cons c cs ih =>
    have hc : c ≠ sep := fun e => h (by simp [e])
    have hcs : sep ∉ cs := fun e => h (by simp [e])
    simp [strings.Split, hc, ih hcs]

/-- The first field ends at the first separator. -/
theorem strings_Split_append (f rest : GoString) (sep : Nat) (h : sep ∉ f) :
    strings.Split (f ++ sep :: rest) sep = f :: strings.Split rest sep := by
  induction f with
  | nil => simp [strings.Split]
  | cons c cs ih =>
    have hc : c ≠ sep := fun e => h (by simp [e])
    have hcs : sep ∉ cs := fun e => h (by simp [e])
    simp [strings.Split, hc, ih hcs]

theorem fieldValue_unique (f : GoString) (n m : Int) (hn : fieldValue f n)
    (hm : fieldValue f m) : n = m := by
  rcases hn with ⟨h1, rfl⟩ | ⟨h1, h2⟩ <;> rcases hm with ⟨h3, rfl⟩ | ⟨h3, h4⟩
  · rfl
  · exact absurd h1 h3
  · exact absurd h3 h1
  · rw [h2] at h4; cases h4; rfl

theorem fieldError_eq_none_iff (f : GoString) :
    fieldError f = none ↔ ∃ n, fieldValue f n := by
  unfold fieldError fieldValue
  by_cases hf : f = []
  · simp [hf]
  · cases h : strconv.Atoi f <;> simp [hf]

theorem fieldError_eq_some_iff (f : GoString) (e : Error) :
    fieldError f = some e ↔ f ≠ [] ∧ strconv.Atoi f = .error e := by
  unfold fieldError
  by_cases hf : f = []
  · simp [hf]
  · cases h : strconv.Atoi f <;> simp [hf]

theorem firstFieldError_eq_none_iff (parts : List GoString) :
    firstFieldError parts = none ↔ ∀ f ∈ parts, f = [] ∨ ∃ n, strconv.Atoi f = .ok n := by
  induction parts with
  | nil => simp [firstFieldError]
  | cons f rest ih =>
    simp only [firstFieldError, List.mem_cons, forall_eq_or_imp]
    cases h : fieldError f with
    | none =>
      rw [← ih]
      obtain ⟨n, hn⟩ := (fieldError_eq_none_iff f).1 h
      have : f = [] ∨ ∃ n, strconv.Atoi f = .ok n := by
        rcases hn with ⟨h1, _⟩ | ⟨_, h2⟩
        · exact Or.inl h1
        · exact Or.inr ⟨n, h2⟩
      simp [this]
    | some e =>
      obtain ⟨h1, h2⟩ := (fieldError_eq_some_iff f e).1 h
      simp [h1, h2]

/-- The first field error is the error of a rejected non-empty field all of whose predecessors
are empty or parse. -/
theorem firstFieldError_of_first (pre post : List GoString) (f : GoString) (e : Error)
    (hpre : ∀ g ∈ pre, g = [] ∨ ∃ n, strconv.Atoi g = .ok n) (hf : f ≠ [])
    (he : strconv.Atoi f = .error e) : firstFieldError (pre ++ f :: post) = some e := by
  induction pre with
  | nil =>
    simp [firstFieldError, (fieldError_eq_some_iff f e).2 ⟨hf, he⟩]
  | cons g rest ih =>
    have hg : fieldError g = none := by
      rw [fieldError_eq_none_iff]
      rcases hpre g (by simp) with h | ⟨n, h⟩
      · exact ⟨-1, Or.inl ⟨h, rfl⟩⟩
      · by_cases hg : g = []
        · exact ⟨-1, Or.inl ⟨hg, rfl⟩⟩
        · exact ⟨n, Or.inr ⟨hg, h⟩⟩
    simp only [List.cons_append, firstFieldError, hg]
    exact ih (fun x hx => hpre x (by simp [hx]))

theorem set_append_length (pre : List Int) (x v : Int) (s : List Int) :
    (pre ++ x :: s).set pre.length v = pre ++ v :: s := by
  induction pre with
  | nil => rfl
  | cons a rest ih => simp [ih]

/-- The loop of `TerrainList.UnmarshalXMLAttr` over `parts`, entered with the corners
`pre ++ suf` at index `len(pre)`: it does not panic, returns the first field error, leaves
`Valid` alone, and without an error it has replaced one corner per part. -/
theorem TerrainList_rangeParts_spec (parts : List GoString) :
    ∀ (t : TerrainList) (pre suf : List Int), t.Corners.1 = pre ++ suf →
      parts.length ≤ suf.length →
      ∃ t', TerrainList.rangeParts t pre.length parts = some (t', firstFieldError parts) ∧
        t'.Valid = t.Valid ∧
        (firstFieldError parts = none →
          ∃ vals, List.Forall₂ fieldValue parts vals ∧
            t'.Corners.1 = pre ++ vals ++ suf.drop parts.length) := by
  induction parts with
  | nil =>
    intro t pre suf hc _
    exact ⟨t, rfl, rfl, fun _ => ⟨[], List.Forall₂.nil, by simp [hc]⟩⟩
  | cons part rest ih =>
    intro t pre suf hc hlen
    cases suf with
    | nil => simp at hlen
    | cons x s =>
      have h4 : (pre ++ x :: s).length = 4 := by rw [← hc]; exact t.Corners.2
      have hi : pre.length < 4 := by
        rw [List.length_append, List.length_cons] at h4; omega
      have hrest : rest.length ≤ s.length := by
        simp only [List.length_cons] at hlen; omega
      have hset : ∀ v : Int, t.Corners.1.set pre.length v = (pre ++ [v]) ++ s := by
        intro v; rw [hc, set_append_length]; simp
      simp only [TerrainList.rangeParts, Array4.setIndex, if_pos hi, firstFieldError]
      by_cases hp : part = []
      · have hfe : fieldError part = none := by simp [fieldError, hp]
        have hl : ¬ part.length > 0 := by simp [hp]
        simp only [hl, if_false, hfe]
        obtain ⟨t', h1, h2, h3⟩ :=
          ih { t with Corners := ⟨t.Corners.1.set pre.length NoTerrain, by
                rw [List.length_set]; exact t.Corners.2⟩ }
            (pre ++ [NoTerrain]) s (hset NoTerrain) hrest
        rw [List.length_append, List.length_singleton] at h1
        refine ⟨t', h1, h2, fun hn => ?_⟩
        obtain ⟨vals, hv, hcs⟩ := h3 hn
        refine ⟨NoTerrain :: vals, List.Forall₂.cons (Or.inl ⟨hp, rfl⟩) hv, ?_⟩
        rw [hcs]; simp
      · have hl : part.length > 0 := List.length_pos.2 hp
        simp only [hl, if_true]
        cases ha : strconv.Atoi part with
        | error e =>
          have hfe : fieldError part = some e := (fieldError_eq_some_iff part e).2 ⟨hp, ha⟩
          simp only [hfe]
          exact ⟨_, rfl, rfl, fun hn => by cases hn⟩
        | ok n =>
          have hfe : fieldError part = none :=
            (fieldError_eq_none_iff part).2 ⟨n, Or.inr ⟨hp, ha⟩⟩
          simp only [hfe, List.set_set]
          obtain ⟨t', h1, h2, h3⟩ :=
            ih { t with Corners := ⟨t.Corners.1.set pre.length n, by
                  rw [List.length_set]; exact t.Corners.2⟩ }
              (pre ++ [n]) s (hset n) hrest
          rw [List.length_append, List.length_singleton] at h1
          refine ⟨t', h1, h2, fun hn => ?_⟩
          obtain ⟨vals, hv, hcs⟩ := h3 hn
          refine ⟨n :: vals, List.Forall₂.cons (Or.inr ⟨hp, ha⟩) hv, ?_⟩
          rw [hcs]; simp

theorem firstFieldError_ne_none_iff (parts : List GoString) :
    firstFieldError parts ≠ none ↔
      ∃ f ∈ parts, f ≠ [] ∧ ∃ e, strconv.Atoi f = .error e := by
  rw [Ne, firstFieldError_eq_none_iff]
  constructor
  · intro h
    by_contra hne
    apply h
    intro f hf
    by_cases hf0 : f = []
    · exact Or.inl hf0
    · cases ha : strconv.Atoi f with
      | ok n => exact Or.inr ⟨n, rfl⟩
      | error e => exact absurd ⟨f, hf, hf0, e, ha⟩ hne
  · rintro ⟨f, hf, hf0, e, he⟩ h
    rcases h f hf with h1 | ⟨n, h1⟩
    · exact hf0 h1
    · rw [he] at h1; cases h1

/-- The three ways `TerrainList.UnmarshalXMLAttr` ends: the format error with the receiver
untouched, the first field error with `Valid` untouched, or `nil` with `Valid` set and one
corner per field. It never panics. -/
theorem TerrainList_UnmarshalXMLAttr_spec (t : TerrainList) (attr : xml.Attr) :
    ((strings.Split attr.Value 44).length ≠ 4 ∧
        t.UnmarshalXMLAttr attr =
          some (t, some (errors.New (terrainListMessage ++ attr.Value)))) ∨
    ((strings.Split attr.Value 44).length = 4 ∧
      ∃ e t', firstFieldError (strings.Split attr.Value 44) = some e ∧
        t.UnmarshalXMLAttr attr = some (t', some e) ∧ t'.Valid = t.Valid) ∨
    ((strings.Split attr.Value 44).length = 4 ∧
      firstFieldError (strings.Split attr.Value 44) = none ∧
      ∃ t', t.UnmarshalXMLAttr attr = some (t', none) ∧ t'.Valid = true ∧
        List.Forall₂ fieldValue (strings.Split attr.Value 44) t'.Corners.1) := by
  by_cases hlen : (strings.Split attr.Value 44).length = 4
  · right
    obtain ⟨t', h1, h2, h3⟩ :=
      TerrainList_rangeParts_spec (strings.Split attr.Value 44) t [] t.Corners.1 rfl
        (by rw [hlen, t.Corners.2])
    simp only [List.length_nil] at h1
    cases hfe : firstFieldError (strings.Split attr.Value 44) with
    | some e =>
      left
      refine ⟨hlen, e, t', rfl, ?_, h2⟩
      unfold TerrainList.UnmarshalXMLAttr
      simp only [hlen, ne_eq, not_true_eq_false, if_false, h1, hfe]
    | none =>
      right
      refine ⟨hlen, rfl, { t' with Valid := true }, ?_, rfl, ?_⟩
      · unfold TerrainList.UnmarshalXMLAttr
        simp only [hlen, ne_eq, not_true_eq_false, if_false, h1, hfe]
      · obtain ⟨vals, hv, hcs⟩ := h3 hfe
        have hvl : vals.length = 4 := by rw [← hv.length_eq, hlen]
        have hd : List.drop 4 t.Corners.1 = [] :=
          List.drop_eq_nil_of_le (by rw [t.Corners.2])
        have : t'.Corners.1 = vals := by
          rw [hcs, hlen, hd]; simp
        show List.Forall₂ fieldValue _ t'.Corners.1
        rw [this]; exact hv
  · left
    refine ⟨hlen, ?_⟩
    unfold TerrainList.UnmarshalXMLAttr
    simp only [ne_eq, hlen, not_false_eq_true, if_true]

/-! ## Lemmas on the unmarshalling loops -/

theorem xml_forEach_preserves {σ α β : Type} (step : σ → α → Except xml.Abort σ) (f : σ → β)
    (hstep : ∀ v a w, step v a = .ok w → f w = f v) :
    ∀ (l : List α) (v w : σ), xml.forEach step v l = .ok w → f w = f v := by
  intro l
  induction l with
  | nil => intro v w h; simp only [xml.forEach, Except.ok.injEq] at h; rw [h]
  | cons a rest ih =>
    intro v w h
    simp only [xml.forEach] at h
    cases hs : step v a with
    | error e => rw [hs] at h; cases h
    | ok v1 =>
      rw [hs] at h
      rw [ih v1 w h, hstep v a v1 hs]

theorem xml_forEach_ne_panic {σ α : Type} (step : σ → α → Except xml.Abort σ)
    (hstep : ∀ v a, step v a ≠ .error .panic) :
    ∀ (l : List α) (v : σ), xml.forEach step v l ≠ .error .panic := by
  intro l
  induction l with
  | nil => intro v h; cases h
  | cons a rest ih =>
    intro v h
    simp only [xml.forEach] at h
    cases hs : step v a with
    | error e =>
      rw [hs] at h
      simp only [Except.error.injEq] at h
      exact hstep v a (by rw [hs, h])
    | ok v1 => rw [hs] at h; exact ih v1 h

/-- When a loop ends without error, each of its steps returned `nil`. -/
theorem xml_forEach_ok_mem {σ α : Type} (step : σ → α → Except xml.Abort σ) :
    ∀ (l : List α) (v w : σ), xml.forEach step v l = .ok w →
      ∀ a ∈ l, ∃ v1 w1, step v1 a = .ok w1 := by
  intro l
  induction l with
  | nil => intro v w _ a ha; cases ha
  | cons b rest ih =>
    intro v w h a ha
    simp only [xml.forEach] at h
    cases hs : step v b with
    | error e => rw [hs] at h; cases h
    | ok v1 =>
      rw [hs] at h
      rcases List.mem_cons.1 ha with rfl | ha
      · exact ⟨v, v1, hs⟩
      · exact ih v1 w h a ha

theorem xml_copyInt_ne_panic (src : GoString) : xml.copyInt src ≠ .error .panic := by
  unfold xml.copyInt
  split_ifs
  · intro h; cases h
  · split <;> intro h <;> cases h

theorem xml_intAttr_ne_panic {σ : Type} (a : xml.Attr) (set : Int → σ) :
    xml.intAttr a set ≠ .error .panic := by
  unfold xml.intAttr
  have := xml_copyInt_ne_panic a.Value
  split
  · next e he => intro h; simp only [Except.error.injEq] at h; exact this (by rw [he, h])
  · intro h; cases h

theorem xml_checkName_ne_panic (name : GoString) (start : xml.StartElement) :
    xml.checkName name start ≠ .error .panic := by
  unfold xml.checkName
  split_ifs <;> intro h <;> cases h

theorem xml_unmarshalAttr_ne_panic {σ : Type} (r : Option (σ × Option Error))
    (h : r ≠ none) : xml.unmarshalAttr r ≠ .error .panic := by
  unfold xml.unmarshalAttr
  split
  · exact absurd rfl h
  · intro h; cases h
  · intro h; cases h

theorem xml_unmarshalAttr_ok {σ : Type} (r : Option (σ × Option Error)) (v : σ)
    (h : xml.unmarshalAttr r = .ok v) : r = some (v, none) := by
  unfold xml.unmarshalAttr at h
  split at h
  · cases h
  · cases h
  · cases h; rfl

theorem Color_UnmarshalXMLAttr_ne_none (c : Color) (attr : xml.Attr) :
    c.UnmarshalXMLAttr attr ≠ none := by
  by_cases h : attr.Value = []
  · unfold Color.UnmarshalXMLAttr; simp [h]
  · rcases Color_UnmarshalXMLAttr_cases c attr h with ⟨e, _, hr⟩ | ⟨bs, c', _, _, hr⟩ <;>
      rw [hr] <;> simp

theorem TerrainList_UnmarshalXMLAttr_ne_none (t : TerrainList) (attr : xml.Attr) :
    t.UnmarshalXMLAttr attr ≠ none := by
  rcases TerrainList_UnmarshalXMLAttr_spec t attr with ⟨_, h⟩ | ⟨_, e, t', _, h, _⟩ |
    ⟨_, _, t', h, _, _⟩ <;> rw [h] <;> simp

/-- A value that `Color.UnmarshalXMLAttr` accepts is not a rejected one. -/
theorem Color_not_rejected_of_ok (c c' : Color) (attr : xml.Attr)
    (h : c.UnmarshalXMLAttr attr = some (c', none)) : ¬ rejectedColor attr.Value := by
  rintro ⟨hne, hbad⟩
  rcases Color_UnmarshalXMLAttr_cases c attr hne with ⟨e, _, hr⟩ | ⟨bs, c'', hd, _, _⟩
  · rw [hr] at h; cases h
  · obtain ⟨h1, h2⟩ := (hex_Decode_ok_iff (attr.Value.drop 1)).1 ⟨bs, hd⟩
    rcases hbad with h3 | ⟨b, hb, h3⟩
    · omega
    · exact h3 (h2 b hb)

/-- A value that `TerrainList.UnmarshalXMLAttr` accepts is not a rejected one. -/
theorem TerrainList_not_rejected_of_ok (t t' : TerrainList) (attr : xml.Attr)
    (h : t.UnmarshalXMLAttr attr = some (t', none)) : ¬ rejectedTerrain attr.Value := by
  intro hbad
  rcases TerrainList_UnmarshalXMLAttr_spec t attr with ⟨_, hr⟩ | ⟨_, e, t'', _, hr, _⟩ |
    ⟨hl, hn, _⟩
  · rw [hr] at h; cases h
  · rw [hr] at h; cases h
  · rcases hbad with h4 | h4
    · exact h4 hl
    · exact (firstFieldError_ne_none_iff _).2 h4 hn

theorem Image_attr_ne_panic (v : Image) (a : xml.Attr) : Image.attr v a ≠ .error .panic := by
  unfold Image.attr
  split_ifs <;> first | exact xml_intAttr_ne_panic _ _ | (intro h; cases h)

theorem Image_unmarshal_ne_panic (v : Image) (start : xml.StartElement)
    (content : List xml.Node) : Image.unmarshal v start content ≠ .error .panic := by
  unfold Image.unmarshal
  have := xml_checkName_ne_panic (ascii "image") start
  split
  · next e he => intro h; simp only [Except.error.injEq] at h; exact this (by rw [he, h])
  · exact xml_forEach_ne_panic _ Image_attr_ne_panic _ _

theorem Terrain_attr_ne_panic (v : Terrain) (a : xml.Attr) :
    Terrain.attr v a ≠ .error .panic := by
  unfold Terrain.attr
  split_ifs <;> first | exact xml_intAttr_ne_panic _ _ | (intro h; cases h)

theorem Terrain_unmarshal_ne_panic (v : Terrain) (start : xml.StartElement)
    (content : List xml.Node) : Terrain.unmarshal v start content ≠ .error .panic := by
  unfold Terrain.unmarshal
  have := xml_checkName_ne_panic (ascii "terrain") start
  split
  · next e he => intro h; simp only [Except.error.injEq] at h; exact this (by rw [he, h])
  · exact xml_forEach_ne_panic _ Terrain_attr_ne_panic _ _

theorem TerrainTypes_child_ne_panic (v : TerrainTypes) (n : xml.Node) :
    TerrainTypes.child v n ≠ .error .panic := by
  cases n with
  | CharData d => intro h; cases h
  | Element start content =>
    simp only [TerrainTypes.child]
    have := Terrain_unmarshal_ne_panic Terrain.zero start content
    split_ifs
    · split
      · next e he => intro h; simp only [Except.error.injEq] at h; exact this (by rw [he, h])
      · intro h; cases h
    · intro h; cases h

theorem TerrainTypes_unmarshal_ne_panic (v : TerrainTypes) (start : xml.StartElement)
    (content : List xml.Node) : TerrainTypes.unmarshal v start content ≠ .error .panic := by
  unfold TerrainTypes.unmarshal
  have := xml_checkName_ne_panic (ascii "terraintypes") start
  split
  · next e he => intro h; simp only [Except.error.injEq] at h; exact this (by rw [he, h])
  · exact xml_forEach_ne_panic _ TerrainTypes_child_ne_panic _ _

theorem Tile_attr_ne_panic (v : Tile) (a : xml.Attr) : Tile.attr v a ≠ .error .panic := by
  unfold Tile.attr
  have := xml_unmarshalAttr_ne_panic _ (TerrainList_UnmarshalXMLAttr_ne_none v.Terrain a)
  split_ifs
  · exact xml_intAttr_ne_panic _ _
  · split
    · next e he => intro h; simp only [Except.error.injEq] at h; exact this (by rw [he, h])
    · intro h; cases h
  · intro h; cases h

theorem Tile_unmarshal_ne_panic (v : Tile) (start : xml.StartElement)
    (content : List xml.Node) : Tile.unmarshal v start content ≠ .error .panic := by
  unfold Tile.unmarshal
  have := xml_checkName_ne_panic (ascii "tile") start
  split
  · next e he => intro h; simp only [Except.error.injEq] at h; exact this (by rw [he, h])
  · exact xml_forEach_ne_panic _ Tile_attr_ne_panic _ _

theorem TileSet_attr_ne_panic (v : TileSet) (a : xml.Attr) :
    TileSet.attr v a ≠ .error .panic := by
  unfold TileSet.attr
  split_ifs <;> first | exact xml_intAttr_ne_panic _ _ | (intro h; cases h)

theorem TileSet_child_ne_panic (v : TileSet) (n : xml.Node) :
    TileSet.child v n ≠ .error .panic := by
  cases n with
  | CharData d => intro h; cases h
  | Element start content =>
    simp only [TileSet.child]
    have h1 := Image_unmarshal_ne_panic v.Image start content
    have h2 := TerrainTypes_unmarshal_ne_panic v.TerrainTypes start content
    have h3 := Tile_unmarshal_ne_panic Tile.zero start content
    split_ifs
    · split
      · next e he => intro h; simp only [Except.error.injEq] at h; exact h1 (by rw [he, h])
      · intro h; cases h
    · split
      · next e he => intro h; simp only [Except.error.injEq] at h; exact h2 (by rw [he, h])
      · intro h; cases h
    · split
      · next e he => intro h; simp only [Except.error.injEq] at h; exact h3 (by rw [he, h])
      · intro h; cases h
    · intro h; cases h

theorem TileSet_unmarshal_ne_panic (v : TileSet) (start : xml.StartElement)
    (content : List xml.Node) : TileSet.unmarshal v start content ≠ .error .panic := by
  unfold TileSet.unmarshal
  have h1 := xml_checkName_ne_panic (ascii "tileset") start
  split
  · next e he => intro h; simp only [Except.error.injEq] at h; exact h1 (by rw [he, h])
  · have h2 := xml_forEach_ne_panic _ TileSet_attr_ne_panic start.Attr
      { v with XMLName := start.Name }
    split
    · next e he => intro h; simp only [Except.error.injEq] at h; exact h2 (by rw [he, h])
    · exact xml_forEach_ne_panic _ TileSet_child_ne_panic _ _

theorem LayerData_attr_ne_panic (v : LayerData) (a : xml.Attr) :
    LayerData.attr v a ≠ .error .panic := by
  unfold LayerData.attr
  split_ifs <;> (intro h; cases h)

theorem LayerData_unmarshal_ne_panic (v : LayerData) (start : xml.StartElement)
    (content : List xml.Node) : LayerData.unmarshal v start content ≠ .error .panic := by
  unfold LayerData.unmarshal
  have h1 := xml_checkName_ne_panic (ascii "data") start
  split
  · next e he => intro h; simp only [Except.error.injEq] at h; exact h1 (by rw [he, h])
  · have h2 := xml_forEach_ne_panic _ LayerData_attr_ne_panic start.Attr
      { v with XMLName := start.Name }
    split
    · next e he => intro h; simp only [Except.error.injEq] at h; exact h2 (by rw [he, h])
    · intro h; cases h

theorem Layer_attr_ne_panic (v : Layer) (a : xml.Attr) : Layer.attr v a ≠ .error .panic := by
  unfold Layer.attr
  split_ifs <;> first | exact xml_intAttr_ne_panic _ _ | (intro h; cases h)

theorem Layer_child_ne_panic (v : Layer) (n : xml.Node) :
    Layer.child v n ≠ .error .panic := by
  cases n with
  | CharData d => intro h; cases h
  | Element start content =>
    simp only [Layer.child]
    have h1 := LayerData_unmarshal_ne_panic v.Data start content
    split_ifs
    · split
      · next e he => intro h; simp only [Except.error.injEq] at h; exact h1 (by rw [he, h])
      · intro h; cases h
    · intro h; cases h

theorem Layer_unmarshal_ne_panic (v : Layer) (start : xml.StartElement)
    (content : List xml.Node) : Layer.unmarshal v start content ≠ .error .panic := by
  unfold Layer.unmarshal
  have h1 := xml_checkName_ne_panic (ascii "layer") start
  split
  · next e he => intro h; simp only [Except.error.injEq] at h; exact h1 (by rw [he, h])
  · have h2 := xml_forEach_ne_panic _ Layer_attr_ne_panic start.Attr
      { v with XMLName := start.Name }
    split
    · next e he => intro h; simp only [Except.error.injEq] at h; exact h2 (by rw [he, h])
    · exact xml_forEach_ne_panic _ Layer_child_ne_panic _ _

theorem Map_attr_ne_panic (v : Map) (a : xml.Attr) : Map.attr v a ≠ .error .panic := by
  unfold Map.attr
  have h1 := xml_unmarshalAttr_ne_panic (Orientation.UnmarshalXMLAttr v.Orientation a)
    (by simp [Orientation.UnmarshalXMLAttr])
  have h2 := xml_unmarshalAttr_ne_panic (RenderOrder.UnmarshalXMLAttr v.RenderOrder a)
    (by simp [RenderOrder.UnmarshalXMLAttr])
  have h3 := xml_unmarshalAttr_ne_panic _ (Color_UnmarshalXMLAttr_ne_none v.BackgroundColor a)
  by_cases c0 : a.Name.Local = ascii "version"
  · rw [if_pos c0]; intro h; cases h
  rw [if_neg c0]
  by_cases c1 : a.Name.Local = ascii "orientation"
  · rw [if_pos c1]
    split
    · next e he => intro h; simp only [Except.error.injEq] at h; exact h1 (by rw [he, h])
    · intro h; cases h
  rw [if_neg c1]
  by_cases c2 : a.Name.Local = ascii "renderorder"
  · rw [if_pos c2]
    split
    · next e he => intro h; simp only [Except.error.injEq] at h; exact h2 (by rw [he, h])
    · intro h; cases h
  rw [if_neg c2]
  by_cases c3 : a.Name.Local = ascii "width"
  · rw [if_pos c3]; exact xml_intAttr_ne_panic _ _
  rw [if_neg c3]
  by_cases c4 : a.Name.Local = ascii "height"
  · rw [if_pos c4]; exact xml_intAttr_ne_panic _ _
  rw [if_neg c4]
  by_cases c5 : a.Name.Local = ascii "tilewidth"
  · rw [if_pos c5]; exact xml_intAttr_ne_panic _ _
  rw [if_neg c5]
  by_cases c6 : a.Name.Local = ascii "tileheight"
  · rw [if_pos c6]; exact xml_intAttr_ne_panic _ _
  rw [if_neg c6]
  by_cases c7 : a.Name.Local = ascii "hexsidelength"
  · rw [if_pos c7]; exact xml_intAttr_ne_panic _ _
  rw [if_neg c7]
  by_cases c8 : a.Name.Local = ascii "staggeraxis"
  · rw [if_pos c8]; exact xml_intAttr_ne_panic _ _
  rw [if_neg c8]
  by_cases c9 : a.Name.Local = ascii "staggerindex"
  · rw [if_pos c9]; exact xml_intAttr_ne_panic _ _
  rw [if_neg c9]
  by_cases c10 : a.Name.Local = ascii "backgroundcolor"
  · rw [if_pos c10]
    split
    · next e he => intro h; simp only [Except.error.injEq] at h; exact h3 (by rw [he, h])
    · intro h; cases h
  rw [if_neg c10]
  by_cases c11 : a.Name.Local = ascii "nextobjectid"
  · rw [if_pos c11]; exact xml_intAttr_ne_panic _ _
  rw [if_neg c11]
  intro h; cases h

theorem Map_child_ne_panic (v : Map) (n : xml.Node) : Map.child v n ≠ .error .panic := by
  cases n with
  | CharData d => intro h; cases h
  | Element start content =>
    simp only [Map.child]
    have h1 := TileSet_unmarshal_ne_panic TileSet.zero start content
    have h2 := Layer_unmarshal_ne_panic Layer.zero start content
    split_ifs
    · split
      · next e he => intro h; simp only [Except.error.injEq] at h; exact h1 (by rw [he, h])
      · intro h; cases h
    · split
      · next e he => intro h; simp only [Except.error.injEq] at h; exact h2 (by rw [he, h])
      · intro h; cases h
    · intro h; cases h

/-- The model of `Read` never ends in a panic: it returns a `Map` or a Go error. -/
theorem Read_ne_panic (start : xml.StartElement) (content : List xml.Node) :
    Read start content ≠ .error .panic := by
  unfold Read Map.unmarshal
  have h1 := xml_checkName_ne_panic (ascii "map") start
  split
  · next e he => intro h; simp only [Except.error.injEq] at h; exact h1 (by rw [he, h])
  · have h2 := xml_forEach_ne_panic _ Map_attr_ne_panic start.Attr
      { Map.zero with XMLName := start.Name }
    split
    · next e he => intro h; simp only [Except.error.injEq] at h; exact h2 (by rw [he, h])
    · exact xml_forEach_ne_panic _ Map_child_ne_panic _ _

theorem xml_intAttr_ok {σ : Type} (a : xml.Attr) (set : Int → σ) (w : σ)
    (h : xml.intAttr a set = .ok w) : ∃ n, w = set n := by
  unfold xml.intAttr at h
  split at h
  · cases h
  · next n _ => cases h; exact ⟨n, rfl⟩

theorem xml_lastAttr_eq_none_iff (name : GoString) (l : List xml.Attr) :
    xml.lastAttr name l = none ↔ ∀ a ∈ l, a.Name.Local ≠ name := by
  induction l with
  | nil => simp [xml.lastAttr]
  | cons a rest ih =>
    simp only [xml.lastAttr, List.mem_cons, forall_eq_or_imp]
    cases h : xml.lastAttr name rest with
    | some b =>
      rw [h] at ih
      simp only [reduceCtorEq, false_iff] at ih ⊢
      exact fun hh => ih hh.2
    | none =>
      rw [h] at ih
      simp only [true_iff] at ih
      by_cases ha : a.Name.Local = name
      · simp [ha]
      · simp only [ha, if_false, true_iff]
        exact ⟨ha, ih⟩

theorem xml_mem_elements (name : GoString) (e : xml.StartElement × List xml.Node)
    (nodes : List xml.Node) (h : e ∈ xml.elements name nodes) :
    xml.Node.Element e.1 e.2 ∈ nodes ∧ e.1.Name.Local = name := by
  induction nodes with
  | nil => simp [xml.elements] at h
  | cons n rest ih =>
    cases n with
    | CharData d =>
      simp only [xml.elements] at h
      exact ⟨List.mem_cons_of_mem _ (ih h).1, (ih h).2⟩
    | Element start content =>
      simp only [xml.elements] at h
      split_ifs at h with hn
      · rcases List.mem_cons.1 h with rfl | h
        · exact ⟨List.mem_cons_self _ _, hn⟩
        · exact ⟨List.mem_cons_of_mem _ (ih h).1, (ih h).2⟩
      · exact ⟨List.mem_cons_of_mem _ (ih h).1, (ih h).2⟩

theorem Tile_attr_terrain (v : Tile) (a : xml.Attr) (w : Tile)
    (hn : a.Name.Local = ascii "terrain") (h : Tile.attr v a = .ok w) :
    v.Terrain.UnmarshalXMLAttr a = some (w.Terrain, none) := by
  unfold Tile.attr at h
  rw [if_neg (by rw [hn]; decide : ¬ a.Name.Local = ascii "id"), if_pos hn] at h
  split at h
  · cases h
  · next t ht => cases h; exact xml_unmarshalAttr_ok _ _ ht

theorem Tile_attr_other (v : Tile) (a : xml.Attr) (w : Tile)
    (hn : a.Name.Local ≠ ascii "terrain") (h : Tile.attr v a = .ok w) :
    w.Terrain = v.Terrain := by
  unfold Tile.attr at h
  rw [if_neg hn] at h
  split_ifs at h
  · obtain ⟨n, rfl⟩ := xml_intAttr_ok _ _ _ h; rfl
  · cases h; rfl

/-- The attribute loop of a `tile` start tag leaves in `Terrain` what the last `terrain`
attribute decoded to, and leaves `Terrain` alone when there is none. -/
theorem Tile_forEach_attr_terrain (attrs : List xml.Attr) :
    ∀ (v w : Tile), xml.forEach Tile.attr v attrs = .ok w →
      match xml.lastAttr (ascii "terrain") attrs with
      | none => w.Terrain = v.Terrain
      | some a => w.Terrain.Valid = true ∧
          List.Forall₂ fieldValue (strings.Split a.Value 44) w.Terrain.Corners.1 := by
  induction attrs with
  | nil => intro v w h; simp only [xml.forEach, Except.ok.injEq] at h; subst h; rfl
  | cons a rest ih =>
    intro v w h
    simp only [xml.forEach] at h
    cases hs : Tile.attr v a with
    | error e => rw [hs] at h; cases h
    | ok v1 =>
      rw [hs] at h
      have hrest := ih v1 w h
      simp only [xml.lastAttr]
      cases hl : xml.lastAttr (ascii "terrain") rest with
      | some b => rw [hl] at hrest; exact hrest
      | none =>
        rw [hl] at hrest
        simp only at hrest ⊢
        by_cases hn : a.Name.Local = ascii "terrain"
        · rw [if_pos hn]
          have hd := Tile_attr_terrain v a v1 hn hs
          rcases TerrainList_UnmarshalXMLAttr_spec v.Terrain a with ⟨_, hr⟩ |
            ⟨_, e, t', _, hr, _⟩ | ⟨_, _, t', hr, hv, hc⟩
          · rw [hr] at hd; simp at hd
          · rw [hr] at hd; simp at hd
          · rw [hr] at hd
            simp only [Option.some.injEq, Prod.mk.injEq, and_true] at hd
            rw [hrest, ← hd]
            exact ⟨hv, hc⟩
        · rw [if_neg hn]
          simp only
          rw [hrest, Tile_attr_other v a v1 hn hs]

theorem Tile_unmarshal_tileTerrain (start : xml.StartElement) (content : List xml.Node)
    (t : Tile) (h : Tile.unmarshal Tile.zero start content = .ok t) :
    tileTerrain start t := by
  unfold Tile.unmarshal at h
  split at h
  · cases h
  · have key := Tile_forEach_attr_terrain start.Attr _ t h
    have hnone := xml_lastAttr_eq_none_iff (ascii "terrain") start.Attr
    unfold tileTerrain
    cases hl : xml.lastAttr (ascii "terrain") start.Attr with
    | none =>
      rw [hl] at key hnone
      simp only at key
      simp only [true_iff] at hnone
      refine ⟨?_, fun a ha => by cases ha⟩
      rw [key]
      constructor
      · intro hv; cases hv
      · rintro ⟨a, ha, hn⟩; exact absurd hn (hnone a ha)
    | some a =>
      rw [hl] at key hnone
      simp only at key
      simp only [reduceCtorEq, false_iff, not_forall, not_not] at hnone
      refine ⟨⟨fun _ => ?_, fun _ => key.1⟩, fun b hb => ?_⟩
      · obtain ⟨x, hx, hxn⟩ := hnone
        exact ⟨x, hx, hxn⟩
      · cases hb; exact key.2

theorem TileSet_attr_Tiles (v : TileSet) (a : xml.Attr) (w : TileSet)
    (h : TileSet.attr v a = .ok w) : w.Tiles = v.Tiles := by
  unfold TileSet.attr at h
  split_ifs at h <;>
    first
    | (obtain ⟨n, rfl⟩ := xml_intAttr_ok _ _ _ h; rfl)
    | (cases h; rfl)

/-- The content loop of a `tileset` element appends one `Tile` per `tile` element, in order,
each decoded from its own start tag. -/
theorem TileSet_forEach_child_Tiles (content : List xml.Node) :
    ∀ (v w : TileSet), xml.forEach TileSet.child v content = .ok w →
      ∃ new, w.Tiles = v.Tiles ++ new ∧
        List.Forall₂ (fun e t => tileTerrain e.1 t) (xml.elements (ascii "tile") content)
          new := by
  induction content with
  | nil =>
    intro v w h
    simp only [xml.forEach, Except.ok.injEq] at h
    subst h
    exact ⟨[], by simp, List.Forall₂.nil⟩
  | cons n rest ih =>
    intro v w h
    simp only [xml.forEach] at h
    cases hs : TileSet.child v n with
    | error e => rw [hs] at h; cases h
    | ok v1 =>
      rw [hs] at h
      obtain ⟨new, hnew, hrel⟩ := ih v1 w h
      cases n with
      | CharData d =>
        simp only [TileSet.child, Except.ok.injEq] at hs
        subst hs
        exact ⟨new, hnew, hrel⟩
      | Element start sub =>
        simp only [TileSet.child] at hs
        simp only [xml.elements]
        by_cases c1 : start.Name.Local = ascii "image"
        · rw [if_pos c1] at hs
          rw [if_neg (by rw [c1]; decide : ¬ start.Name.Local = ascii "tile")]
          split at hs
          · cases hs
          · cases hs; exact ⟨new, hnew, hrel⟩
        rw [if_neg c1] at hs
        by_cases c2 : start.Name.Local = ascii "terraintypes"
        · rw [if_pos c2] at hs
          rw [if_neg (by rw [c2]; decide : ¬ start.Name.Local = ascii "tile")]
          split at hs
          · cases hs
          · cases hs; exact ⟨new, hnew, hrel⟩
        rw [if_neg c2] at hs
        by_cases c3 : start.Name.Local = ascii "tile"
        · rw [if_pos c3] at hs
          rw [if_pos c3]
          split at hs
          · cases hs
          · next t ht =>
            cases hs
            refine ⟨t :: new, ?_, List.Forall₂.cons (Tile_unmarshal_tileTerrain start sub t ht)
              hrel⟩
            rw [hnew]; simp
        · rw [if_neg c3] at hs
          rw [if_neg c3]
          cases hs
          exact ⟨new, hnew, hrel⟩

theorem TileSet_unmarshal_Tiles (start : xml.StartElement) (content : List xml.Node)
    (ts : TileSet) (h : TileSet.unmarshal TileSet.zero start content = .ok ts) :
    List.Forall₂ (fun e t => tileTerrain e.1 t) (xml.elements (ascii "tile") content)
      ts.Tiles := by
  unfold TileSet.unmarshal at h
  split at h
  · cases h
  · split at h
    · cases h
    · next w hw =>
      have h0 : w.Tiles = [] :=
        xml_forEach_preserves TileSet.attr (fun v => v.Tiles) TileSet_attr_Tiles _ _ _ hw
      obtain ⟨new, hnew, hrel⟩ := TileSet_forEach_child_Tiles content w ts h
      rw [hnew, h0]
      exact hrel

/-- The content loop of the `map` element appends one `TileSet` per `tileset` element, in
order, each with the `Tile`s of its own `tile` elements. -/
theorem Map_forEach_child_TileSets (content : List xml.Node) :
    ∀ (v w : Map), xml.forEach Map.child v content = .ok w →
      ∃ new, w.TileSets = v.TileSets ++ new ∧
        List.Forall₂
          (fun e ts => List.Forall₂ (fun e t => tileTerrain e.1 t)
            (xml.elements (ascii "tile") e.2) ts.Tiles)
          (xml.elements (ascii "tileset") content) new := by
  induction content with
  | nil =>
    intro v w h
    simp only [xml.forEach, Except.ok.injEq] at h
    subst h
    exact ⟨[], by simp, List.Forall₂.nil⟩
  | cons n rest ih =>
    intro v w h
    simp only [xml.forEach] at h
    cases hs : Map.child v n with
    | error e => rw [hs] at h; cases h
    | ok v1 =>
      rw [hs] at h
      obtain ⟨new, hnew, hrel⟩ := ih v1 w h
      cases n with
      | CharData d =>
        simp only [Map.child, Except.ok.injEq] at hs
        subst hs
        exact ⟨new, hnew, hrel⟩
      | Element start sub =>
        simp only [Map.child] at hs
        simp only [xml.elements]
        by_cases c1 : start.Name.Local = ascii "tileset"
        · rw [if_pos c1] at hs
          rw [if_pos c1]
          split at hs
          · cases hs
          · next t ht =>
            cases hs
            refine ⟨t :: new, ?_, List.Forall₂.cons (TileSet_unmarshal_Tiles start sub t ht)
              hrel⟩
            rw [hnew]; simp
        rw [if_neg c1] at hs
        rw [if_neg c1]
        split_ifs at hs
        · split at hs
          · cases hs
          · cases hs; exact ⟨new, hnew, hrel⟩
        · cases hs; exact ⟨new, hnew, hrel⟩

theorem Map_attr_TileSets (v : Map) (a : xml.Attr) (w : Map) (h : Map.attr v a = .ok w) :
    w.TileSets = v.TileSets := by
  unfold Map.attr at h
  by_cases c0 : a.Name.Local = ascii "version"
  · rw [if_pos c0] at h; cases h; rfl
  rw [if_neg c0] at h
  by_cases c1 : a.Name.Local = ascii "orientation"
  · rw [if_pos c1] at h
    split at h
    · cases h
    · cases h; rfl
  rw [if_neg c1] at h
  by_cases c2 : a.Name.Local = ascii "renderorder"
  · rw [if_pos c2] at h
    split at h
    · cases h
    · cases h; rfl
  rw [if_neg c2] at h
  by_cases c3 : a.Name.Local = ascii "width"
  · rw [if_pos c3] at h; obtain ⟨n, rfl⟩ := xml_intAttr_ok _ _ _ h; rfl
  rw [if_neg c3] at h
  by_cases c4 : a.Name.Local = ascii "height"
  · rw [if_pos c4] at h; obtain ⟨n, rfl⟩ := xml_intAttr_ok _ _ _ h; rfl
  rw [if_neg c4] at h
  by_cases c5 : a.Name.Local = ascii "tilewidth"
  · rw [if_pos c5] at h; obtain ⟨n, rfl⟩ := xml_intAttr_ok _ _ _ h; rfl
  rw [if_neg c5] at h
  by_cases c6 : a.Name.Local = ascii "tileheight"
  · rw [if_pos c6] at h; obtain ⟨n, rfl⟩ := xml_intAttr_ok _ _ _ h; rfl
  rw [if_neg c6] at h
  by_cases c7 : a.Name.Local = ascii "hexsidelength"
  · rw [if_pos c7] at h; obtain ⟨n, rfl⟩ := xml_intAttr_ok _ _ _ h; rfl
  rw [if_neg c7] at h
  by_cases c8 : a.Name.Local = ascii "staggeraxis"
  · rw [if_pos c8] at h; obtain ⟨n, rfl⟩ := xml_intAttr_ok _ _ _ h; rfl
  rw [if_neg c8] at h
  by_cases c9 : a.Name.Local = ascii "staggerindex"
  · rw [if_pos c9] at h; obtain ⟨n, rfl⟩ := xml_intAttr_ok _ _ _ h; rfl
  rw [if_neg c9] at h
  by_cases c10 : a.Name.Local = ascii "backgroundcolor"
  · rw [if_pos c10] at h
    split at h
    · cases h
    · cases h; rfl
  rw [if_neg c10] at h
  by_cases c11 : a.Name.Local = ascii "nextobjectid"
  · rw [if_pos c11] at h; obtain ⟨n, rfl⟩ := xml_intAttr_ok _ _ _ h; rfl
  rw [if_neg c11] at h
  cases h; rfl

theorem Map_attr_backgroundcolor (v : Map) (a : xml.Attr) (w : Map)
    (hn : a.Name.Local = ascii "backgroundcolor") (h : Map.attr v a = .ok w) :
    v.BackgroundColor.UnmarshalXMLAttr a = some (w.BackgroundColor, none) := by
  unfold Map.attr at h
  rw [if_neg (by rw [hn]; decide : ¬ a.Name.Local = ascii "version")] at h
  rw [if_neg (by rw [hn]; decide : ¬ a.Name.Local = ascii "orientation")] at h
  rw [if_neg (by rw [hn]; decide : ¬ a.Name.Local = ascii "renderorder")] at h
  rw [if_neg (by rw [hn]; decide : ¬ a.Name.Local = ascii "width")] at h
  rw [if_neg (by rw [hn]; decide : ¬ a.Name.Local = ascii "height")] at h
  rw [if_neg (by rw [hn]; decide : ¬ a.Name.Local = ascii "tilewidth")] at h
  rw [if_neg (by rw [hn]; decide : ¬ a.Name.Local = ascii "tileheight")] at h
  rw [if_neg (by rw [hn]; decide : ¬ a.Name.Local = ascii "hexsidelength")] at h
  rw [if_neg (by rw [hn]; decide : ¬ a.Name.Local = ascii "staggeraxis")] at h
  rw [if_neg (by rw [hn]; decide : ¬ a.Name.Local = ascii "staggerindex")] at h
  rw [if_pos hn] at h
  split at h
  · cases h
  · next c hc => cases h; exact xml_unmarshalAttr_ok _ _ hc

theorem Map_child_tileset_ok (v w : Map) (start : xml.StartElement) (sub : List xml.Node)
    (hn : start.Name.Local = ascii "tileset")
    (h : Map.child v (.Element start sub) = .ok w) :
    ∃ t, TileSet.unmarshal TileSet.zero start sub = .ok t := by
  simp only [Map.child, if_pos hn] at h
  split at h
  · cases h
  · next t ht => exact ⟨t, ht⟩

theorem TileSet_child_tile_ok (v w : TileSet) (start : xml.StartElement) (sub : List xml.Node)
    (hn : start.Name.Local = ascii "tile")
    (h : TileSet.child v (.Element start sub) = .ok w) :
    ∃ t, Tile.unmarshal Tile.zero start sub = .ok t := by
  simp only [TileSet.child] at h
  rw [if_neg (by rw [hn]; decide : ¬ start.Name.Local = ascii "image"),
    if_neg (by rw [hn]; decide : ¬ start.Name.Local = ascii "terraintypes"), if_pos hn] at h
  split at h
  · cases h
  · next t ht => exact ⟨t, ht⟩

/-- After a `Read` without error, no `backgroundcolor` attribute of the root start tag has a
rejected value. -/
theorem Read_ok_backgroundcolor (start : xml.StartElement) (content : List xml.Node) (m : Map)
    (h : Read start content = .ok m) (a : xml.Attr) (ha : a ∈ start.Attr)
    (hn : a.Name.Local = ascii "backgroundcolor") : ¬ rejectedColor a.Value := by
  unfold Read Map.unmarshal at h
  split at h
  · cases h
  · split at h
    · cases h
    · next w hw =>
      obtain ⟨v1, w1, hstep⟩ := xml_forEach_ok_mem Map.attr _ _ _ hw a ha
      exact Color_not_rejected_of_ok _ _ a (Map_attr_backgroundcolor v1 a w1 hn hstep)

/-- After a `Read` without error, no `terrain` attribute of a `tile` element of a `tileset`
element of the root has a rejected value. -/
theorem Read_ok_terrain (start : xml.StartElement) (content : List xml.Node) (m : Map)
    (h : Read start content = .ok m)
    (ts : xml.StartElement × List xml.Node) (hts : ts ∈ xml.elements (ascii "tileset") content)
    (tile : xml.StartElement × List xml.Node)
    (htile : tile ∈ xml.elements (ascii "tile") ts.2)
    (a : xml.Attr) (ha : a ∈ tile.1.Attr) (hn : a.Name.Local = ascii "terrain") :
    ¬ rejectedTerrain a.Value := by
  unfold Read Map.unmarshal at h
  split at h
  · cases h
  · split at h
    · cases h
    · next w hw =>
      obtain ⟨hmem, hname⟩ := xml_mem_elements _ ts content hts
      obtain ⟨v1, w1, hstep⟩ := xml_forEach_ok_mem Map.child _ _ _ h _ hmem
      obtain ⟨t, ht⟩ := Map_child_tileset_ok v1 w1 ts.1 ts.2 hname hstep
      unfold TileSet.unmarshal at ht
      split at ht
      · cases ht
      · split at ht
        · cases ht
        · next w2 hw2 =>
          obtain ⟨hmem2, hname2⟩ := xml_mem_elements _ tile ts.2 htile
          obtain ⟨v3, w3, hstep3⟩ := xml_forEach_ok_mem TileSet.child _ _ _ ht _ hmem2
          obtain ⟨t3, ht3⟩ := TileSet_child_tile_ok v3 w3 tile.1 tile.2 hname2 hstep3
          unfold Tile.unmarshal at ht3
          split at ht3
          · cases ht3
          · obtain ⟨v4, w4, hstep4⟩ := xml_forEach_ok_mem Tile.attr _ _ _ ht3 a ha
            exact TerrainList_not_rejected_of_ok _ _ a (Tile_attr_terrain v4 a w4 hn hstep4)

/-- The channel assignments as a function of the decoded bytes alone: each channel is either
overwritten with a byte of `bytes` or left as in the receiver, and which of the two does not
depend on the receiver. -/
theorem Color_setChannels_form (bytes : List Nat) :
    ∃ oR oG oB oA : Option Nat, ∀ c : Color,
      c.setChannels bytes =
        some { R := oR.getD c.R, G := oG.getD c.G, B := oB.getD c.B, A := oA.getD c.A } := by
  unfold Color.setChannels
  simp only []
  by_cases h0 : (bytes.length : Int) - 1 > 0
  · obtain ⟨x0, hx0⟩ := index_isSome bytes ((bytes.length : Int) - 1) (by omega) (by omega)
    by_cases h1 : (bytes.length : Int) - 1 > 1
    · obtain ⟨x1, hx1⟩ := index_isSome bytes ((bytes.length : Int) - 1 - 1) (by omega) (by omega)
      by_cases h2 : (bytes.length : Int) - 1 > 2
      · obtain ⟨x2, hx2⟩ :=
          index_isSome bytes ((bytes.length : Int) - 1 - 2) (by omega) (by omega)
        by_cases h3 : (bytes.length : Int) - 1 > 3
        · obtain ⟨x3, hx3⟩ :=
            index_isSome bytes ((bytes.length : Int) - 1 - 3) (by omega) (by omega)
          exact ⟨some x2, some x1, some x0, some x3, fun c => by
            simp [h0, h1, h2, h3, hx0, hx1, hx2, hx3]⟩
        · exact ⟨some x2, some x1, some x0, none, fun c => by
            simp [h0, h1, h2, h3, hx0, hx1, hx2]⟩
      · have h3 : ¬ (bytes.length : Int) - 1 > 3 := by omega
        exact ⟨none, some x1, some x0, none, fun c => by simp [h0, h1, h2, h3, hx0, hx1]⟩
    · have h2 : ¬ (bytes.length : Int) - 1 > 2 := by omega
      have h3 : ¬ (bytes.length : Int) - 1 > 3 := by omega
      exact ⟨none, none, some x0, none, fun c => by simp [h0, h1, h2, h3, hx0]⟩
  · have h1 : ¬ (bytes.length : Int) - 1 > 1 := by omega
    have h2 : ¬ (bytes.length : Int) - 1 > 2 := by omega
    have h3 : ¬ (bytes.length : Int) - 1 > 3 := by omega
    exact ⟨none, none, none, none, fun c => by simp [h0, h1, h2, h3]⟩

/-- What `Color.UnmarshalXMLAttr` does as a function of the attribute alone: the returned
error, and for each channel whether it is overwritten and with what; with an error no channel
is overwritten. -/
theorem Color_UnmarshalXMLAttr_form (attr : xml.Attr) :
    ∃ (err : Option Error) (oR oG oB oA : Option Nat),
      (∀ c : Color, c.UnmarshalXMLAttr attr =
        some ({ R := oR.getD c.R, G := oG.getD c.G, B := oB.getD c.B, A := oA.getD c.A },
          err)) ∧
      (err ≠ none → oR = none ∧ oG = none ∧ oB = none ∧ oA = none) := by
  by_cases hv : attr.Value = []
  · refine ⟨none, none, none, none, none, fun c => ?_, fun h => absurd rfl h⟩
    simp [Color.UnmarshalXMLAttr, hv]
  · have hlen : attr.Value.length ≠ 0 := fun h0 => hv (List.length_eq_zero.1 h0)
    have hle : 1 ≤ attr.Value.length := Nat.pos_of_ne_zero hlen
    cases hd : hex.Decode (attr.Value.drop 1) with
    | error e =>
      refine ⟨some e, none, none, none, none, fun c => ?_, fun _ => ⟨rfl, rfl, rfl, rfl⟩⟩
      simp only [Color.UnmarshalXMLAttr, if_neg hlen, sliceFrom, if_pos hle, hex.DecodeString,
        hd, Option.getD_none]
    | ok bs =>
      obtain ⟨oR, oG, oB, oA, hform⟩ := Color_setChannels_form bs
      refine ⟨none, oR, oG, oB, oA, fun c => ?_, fun h => absurd rfl h⟩
      simp only [Color.UnmarshalXMLAttr, if_neg hlen, sliceFrom, if_pos hle, hex.DecodeString,
        hd, hform c]

theorem strconv_Atoi_error_form (f : GoString) (e : Error) (h : strconv.Atoi f = .error e) :
    ∃ k, e = .NumError (ascii "Atoi") f k := by
  unfold strconv.Atoi at h
  split at h
  · cases h
  · next k _ => cases h; exact ⟨k, rfl⟩

/-- What `strconv.Atoi` parses from a string that does not begin with `-` is not negative. -/
theorem strconv_parseInt_nonneg (f : GoString) (n : Int) (h : strconv.parseInt f = .ok n)
    (hm : f.head? ≠ some 45) : 0 ≤ n := by
  cases f with
  | nil => simp [strconv.parseInt] at h
  | cons c cs =>
    have hc : c ≠ 45 := fun hc => hm (by simp [hc])
    simp only [strconv.parseInt, hc, decide_False, Bool.false_eq_true, not_false_eq_true,
      true_and, false_and, if_false] at h
    split at h
    · cases h
    · cases h
    · next un _ =>
      split_ifs at h
      cases h
      exact Int.ofNat_nonneg un

theorem strconv_Atoi_nonneg (f : GoString) (n : Int) (h : strconv.Atoi f = .ok n)
    (hm : f.head? ≠ some 45) : 0 ≤ n := by
  unfold strconv.Atoi at h
  split at h
  · next m hp => cases h; exact strconv_parseInt_nonneg f _ hp hm
  · cases h

theorem firstFieldError_some_mem (parts : List GoString) (e : Error)
    (h : firstFieldError parts = some e) : ∃ f ∈ parts, fieldError f = some e := by
  induction parts with
  | nil => simp [firstFieldError] at h
  | cons f rest ih =>
    simp only [firstFieldError] at h
    cases hf : fieldError f with
    | some e' =>
      rw [hf] at h
      simp only [Option.some.injEq] at h
      exact ⟨f, List.mem_cons_self _ _, by rw [hf, h]⟩
    | none =>
      rw [hf] at h
      obtain ⟨g, hg, hge⟩ := ih h
      exact ⟨g, List.mem_cons_of_mem _ hg, hge⟩

theorem cornerOfField_of_fieldValue (f : GoString) (c : Int) (h : fieldValue f c) :
    cornerOfField f c := by
  refine ⟨h, fun hm => ?_⟩
  rcases h with ⟨h1, h2⟩ | ⟨h1, h2⟩
  · exact Or.inl ⟨h1, h2⟩
  · exact Or.inr ⟨h1, strconv_Atoi_nonneg f c h2 hm⟩

theorem strings_trimLeft_subset (runes : List (List Nat)) (fuel : Nat) :
    ∀ (s : GoString) (x : Nat), x ∈ strings.trimLeft runes fuel s → x ∈ s := by
  induction fuel with
  | zero => intro s x h; exact h
  | succ k ih =>
    intro s x h
    simp only [strings.trimLeft] at h
    split at h
    · exact h
    · exact List.mem_of_mem_drop (ih _ x h)

/-- Every byte of `strings.TrimSpace s` is a byte of `s`. -/
theorem strings_TrimSpace_subset (s : GoString) (x : Nat) (h : x ∈ strings.TrimSpace s) :
    x ∈ s := by
  unfold strings.TrimSpace at h
  simp only [List.mem_reverse] at h
  have h1 := strings_trimLeft_subset _ _ _ x h
  exact strings_trimLeft_subset _ _ _ x (List.mem_reverse.1 h1)

/-- An `int` attribute without `-` in its value is not negative. -/
theorem xml_copyInt_nonneg (src : GoString) (n : Int) (h : xml.copyInt src = .ok n)
    (hm : 45 ∉ src) : 0 ≤ n := by
  unfold xml.copyInt at h
  split_ifs at h
  · cases h; exact le_refl 0
  · split at h
    · next m hp =>
      cases h
      unfold strconv.ParseInt at hp
      split at hp
      · next k hk =>
        cases hp
        refine strconv_parseInt_nonneg _ _ hk fun hh => hm ?_
        apply strings_TrimSpace_subset
        cases ht : strings.TrimSpace src with
        | nil => rw [ht] at hh; cases hh
        | cons c cs =>
          rw [ht] at hh
          simp only [List.head?_cons, Option.some.injEq] at hh
          rw [hh]
          exact List.mem_cons_self _ _
      · cases hp
    · cases h

theorem xml_intAttr_ok_value {σ : Type} (a : xml.Attr) (set : Int → σ) (w : σ)
    (h : xml.intAttr a set = .ok w) : ∃ n, xml.copyInt a.Value = .ok n ∧ w = set n := by
  unfold xml.intAttr at h
  split at h
  · cases h
  · next n hn => cases h; exact ⟨n, hn, rfl⟩

/-- An invariant that every step of a loop keeps, for the elements of the list, holds at the
end of a loop that ends without error. -/
theorem xml_forEach_invariant_mem {σ α : Type} (step : σ → α → Except xml.Abort σ)
    (P : σ → Prop) :
    ∀ (l : List α) (v w : σ), (∀ a ∈ l, ∀ v w, step v a = .ok w → P v → P w) →
      xml.forEach step v l = .ok w → P v → P w := by
  intro l
  induction l with
  | nil => intro v w _ h hv; simp only [xml.forEach, Except.ok.injEq] at h; rw [← h]; exact hv
  | cons a rest ih =>
    intro v w hstep h hv
    simp only [xml.forEach] at h
    cases hs : step v a with
    | error e => rw [hs] at h; cases h
    | ok v1 =>
      rw [hs] at h
      exact ih v1 w (fun b hb => hstep b (List.mem_cons_of_mem _ hb)) h
        (hstep a (List.mem_cons_self _ _) v v1 hs hv)

theorem Map_child_dims (v w : Map) (n : xml.Node) (h : Map.child v n = .ok w) :
    (w.Width, w.Height, w.TileWidth, w.TileHeight) =
      (v.Width, v.Height, v.TileWidth, v.TileHeight) := by
  cases n with
  | CharData d => simp only [Map.child, Except.ok.injEq] at h; rw [← h]
  | Element start sub =>
    simp only [Map.child] at h
    split_ifs at h
    · split at h
      · cases h
      · cases h; rfl
    · split at h
      · cases h
      · cases h; rfl
    · cases h; rfl

/-- One attribute of the `map` start tag keeps the four dimensions non-negative, when a
dimension attribute has no `-` in its value. -/
theorem Map_attr_dims (v w : Map) (a : xml.Attr) (h : Map.attr v a = .ok w)
    (hm : a.Name.Local ∈ [ascii "width", ascii "height", ascii "tilewidth", ascii "tileheight"] →
      45 ∉ a.Value)
    (hv : 0 ≤ v.Width ∧ 0 ≤ v.Height ∧ 0 ≤ v.TileWidth ∧ 0 ≤ v.TileHeight) :
    0 ≤ w.Width ∧ 0 ≤ w.Height ∧ 0 ≤ w.TileWidth ∧ 0 ≤ w.TileHeight := by
  unfold Map.attr at h
  by_cases c0 : a.Name.Local = ascii "version"
  · rw [if_pos c0] at h; cases h; exact hv
  rw [if_neg c0] at h
  by_cases c1 : a.Name.Local = ascii "orientation"
  · rw [if_pos c1] at h
    split at h
    · cases h
    · cases h; exact hv
  rw [if_neg c1] at h
  by_cases c2 : a.Name.Local = ascii "renderorder"
  · rw [if_pos c2] at h
    split at h
    · cases h
    · cases h; exact hv
  rw [if_neg c2] at h
  by_cases c3 : a.Name.Local = ascii "width"
  · rw [if_pos c3] at h
    obtain ⟨n, hn, rfl⟩ := xml_intAttr_ok_value _ _ _ h
    have := xml_copyInt_nonneg _ _ hn (hm (by rw [c3]; simp))
    exact ⟨this, hv.2.1, hv.2.2.1, hv.2.2.2⟩
  rw [if_neg c3] at h
  by_cases c4 : a.Name.Local = ascii "height"
  · rw [if_pos c4] at h
    obtain ⟨n, hn, rfl⟩ := xml_intAttr_ok_value _ _ _ h
    have := xml_copyInt_nonneg _ _ hn (hm (by rw [c4]; simp))
    exact ⟨hv.1, this, hv.2.2.1, hv.2.2.2⟩
  rw [if_neg c4] at h
  by_cases c5 : a.Name.Local = ascii "tilewidth"
  · rw [if_pos c5] at h
    obtain ⟨n, hn, rfl⟩ := xml_intAttr_ok_value _ _ _ h
    have := xml_copyInt_nonneg _ _ hn (hm (by rw [c5]; simp))
    exact ⟨hv.1, hv.2.1, this, hv.2.2.2⟩
  rw [if_neg c5] at h
  by_cases c6 : a.Name.Local = ascii "tileheight"
  · rw [if_pos c6] at h
    obtain ⟨n, hn, rfl⟩ := xml_intAttr_ok_value _ _ _ h
    have := xml_copyInt_nonneg _ _ hn (hm (by rw [c6]; simp))
    exact ⟨hv.1, hv.2.1, hv.2.2.1, this⟩
  rw [if_neg c6] at h
  by_cases c7 : a.Name.Local = ascii "hexsidelength"
  · rw [if_pos c7] at h; obtain ⟨n, _, rfl⟩ := xml_intAttr_ok_value _ _ _ h; exact hv
  rw [if_neg c7] at h
  by_cases c8 : a.Name.Local = ascii "staggeraxis"
  · rw [if_pos c8] at h; obtain ⟨n, _, rfl⟩ := xml_intAttr_ok_value _ _ _ h; exact hv
  rw [if_neg c8] at h
  by_cases c9 : a.Name.Local = ascii "staggerindex"
  · rw [if_pos c9] at h; obtain ⟨n, _, rfl⟩ := xml_intAttr_ok_value _ _ _ h; exact hv
  rw [if_neg c9] at h
  by_cases c10 : a.Name.Local = ascii "backgroundcolor"
  · rw [if_pos c10] at h
    split at h
    · cases h
    · cases h; exact hv
  rw [if_neg c10] at h
  by_cases c11 : a.Name.Local = ascii "nextobjectid"
  · rw [if_pos c11] at h; obtain ⟨n, _, rfl⟩ := xml_intAttr_ok_value _ _ _ h; exact hv
  rw [if_neg c11] at h
  cases h; exact hv

theorem Map_attr_Layers (v : Map) (a : xml.Attr) (w : Map) (h : Map.attr v a = .ok w) :
    w.Layers = v.Layers := by
  unfold Map.attr at h
  by_cases c0 : a.Name.Local = ascii "version"
  · rw [if_pos c0] at h; cases h; rfl
  rw [if_neg c0] at h
  by_cases c1 : a.Name.Local = ascii "orientation"
  · rw [if_pos c1] at h
    split at h
    · cases h
    · cases h; rfl
  rw [if_neg c1] at h
  by_cases c2 : a.Name.Local = ascii "renderorder"
  · rw [if_pos c2] at h
    split at h
    · cases h
    · cases h; rfl
  rw [if_neg c2] at h
  by_cases c3 : a.Name.Local = ascii "width"
  · rw [if_pos c3] at h; obtain ⟨n, rfl⟩ := xml_intAttr_ok _ _ _ h; rfl
  rw [if_neg c3] at h
  by_cases c4 : a.Name.Local = ascii "height"
  · rw [if_pos c4] at h; obtain ⟨n, rfl⟩ := xml_intAttr_ok _ _ _ h; rfl
  rw [if_neg c4] at h
  by_cases c5 : a.Name.Local = ascii "tilewidth"
  · rw [if_pos c5] at h; obtain ⟨n, rfl⟩ := xml_intAttr_ok _ _ _ h; rfl
  rw [if_neg c5] at h
  by_cases c6 : a.Name.Local = ascii "tileheight"
  · rw [if_pos c6] at h; obtain ⟨n, rfl⟩ := xml_intAttr_ok _ _ _ h; rfl
  rw [if_neg c6] at h
  by_cases c7 : a.Name.Local = ascii "hexsidelength"
  · rw [if_pos c7] at h; obtain ⟨n, rfl⟩ := xml_intAttr_ok _ _ _ h; rfl
  rw [if_neg c7] at h
  by_cases c8 : a.Name.Local = ascii "staggeraxis"
  · rw [if_pos c8] at h; obtain ⟨n, rfl⟩ := xml_intAttr_ok _ _ _ h; rfl
  rw [if_neg c8] at h
  by_cases c9 : a.Name.Local = ascii "staggerindex"
  · rw [if_pos c9] at h; obtain ⟨n, rfl⟩ := xml_intAttr_ok _ _ _ h; rfl
  rw [if_neg c9] at h
  by_cases c10 : a.Name.Local = ascii "backgroundcolor"
  · rw [if_pos c10] at h
    split at h
    · cases h
    · cases h; rfl
  rw [if_neg c10] at h
  by_cases c11 : a.Name.Local = ascii "nextobjectid"
  · rw [if_pos c11] at h; obtain ⟨n, rfl⟩ := xml_intAttr_ok _ _ _ h; rfl
  rw [if_neg c11] at h
  cases h; rfl

/-- The attribute loop of a `data` start tag leaves in `Encoding` and `Compression` the values
of the last `encoding` and `compression` attributes, verbatim, and does not touch `Text`. -/
theorem LayerData_forEach_attr (attrs : List xml.Attr) :
    ∀ (v w : LayerData), xml.forEach LayerData.attr v attrs = .ok w →
      w.Encoding = (match xml.lastAttr (ascii "encoding") attrs with
        | some a => a.Value
        | none => v.Encoding) ∧
      w.Compression = (match xml.lastAttr (ascii "compression") attrs with
        | some a => a.Value
        | none => v.Compression) := by
  induction attrs with
  | nil => intro v w h; simp only [xml.forEach, Except.ok.injEq] at h; subst h; exact ⟨rfl, rfl⟩
  | cons a rest ih =>
    intro v w h
    simp only [xml.forEach] at h
    cases hs : LayerData.attr v a with
    | error e => rw [hs] at h; cases h
    | ok v1 =>
      rw [hs] at h
      obtain ⟨h1, h2⟩ := ih v1 w h
      simp only [xml.lastAttr]
      unfold LayerData.attr at hs
      by_cases c1 : a.Name.Local = ascii "encoding"
      · rw [if_pos c1] at hs
        cases hs
        have c2 : ¬ a.Name.Local = ascii "compression" := by rw [c1]; decide
        rw [if_pos c1, if_neg c2]
        constructor
        · rw [h1]; cases xml.lastAttr (ascii "encoding") rest <;> rfl
        · rw [h2]; cases xml.lastAttr (ascii "compression") rest <;> rfl
      · rw [if_neg c1] at hs
        by_cases c2 : a.Name.Local = ascii "compression"
        · rw [if_pos c2] at hs
          cases hs
          rw [if_neg c1, if_pos c2]
          constructor
          · rw [h1]; cases xml.lastAttr (ascii "encoding") rest <;> rfl
          · rw [h2]; cases xml.lastAttr (ascii "compression") rest <;> rfl
        · rw [if_neg c2] at hs
          cases hs
          rw [if_neg c1, if_neg c2]
          constructor
          · rw [h1]; cases xml.lastAttr (ascii "encoding") rest <;> rfl
          · rw [h2]; cases xml.lastAttr (ascii "compression") rest <;> rfl

/-- The content loop of a `layer` element unmarshals its `data` elements, in order, into the
one `Data` field. -/
theorem Layer_forEach_child_Data (content : List xml.Node) :
    ∀ (v w : Layer), xml.forEach Layer.child v content = .ok w →
      xml.forEach (fun (d : LayerData) (e : xml.StartElement × List xml.Node) =>
        LayerData.unmarshal d e.1 e.2) v.Data (xml.elements (ascii "data") content)
        = .ok w.Data := by
  induction content with
  | nil => intro v w h; simp only [xml.forEach, Except.ok.injEq] at h; subst h; rfl
  | cons n rest ih =>
    intro v w h
    simp only [xml.forEach] at h
    cases hs : Layer.child v n with
    | error e => rw [hs] at h; cases h
    | ok v1 =>
      rw [hs] at h
      have hrest := ih v1 w h
      cases n with
      | CharData d =>
        simp only [Layer.child, Except.ok.injEq] at hs
        subst hs
        exact hrest
      | Element start sub =>
        simp only [Layer.child] at hs
        simp only [xml.elements]
        by_cases c1 : start.Name.Local = ascii "data"
        · rw [if_pos c1] at hs
          rw [if_pos c1]
          split at hs
          · cases hs
          · next d hd =>
            cases hs
            simp only [xml.forEach, hd]
            exact hrest
        · rw [if_neg c1] at hs
          rw [if_neg c1]
          cases hs
          exact hrest

theorem Layer_attr_Data (v : Layer) (a : xml.Attr) (w : Layer) (h : Layer.attr v a = .ok w) :
    w.Data = v.Data := by
  unfold Layer.attr at h
  split_ifs at h <;>
    first
    | (obtain ⟨n, rfl⟩ := xml_intAttr_ok _ _ _ h; rfl)
    | (cases h; rfl)

/-- A `data` element unmarshalled into a `LayerData`: the attribute values and the character
data as the element tree holds them; a field without attribute keeps what it held. -/
theorem LayerData_unmarshal_from (v : LayerData) (start : xml.StartElement)
    (content : List xml.Node) (d : LayerData)
    (h : LayerData.unmarshal v start content = .ok d) :
    d.Text = xml.charData content ∧
    d.Encoding = (match xml.lastAttr (ascii "encoding") start.Attr with
      | some a => a.Value
      | none => v.Encoding) ∧
    d.Compression = (match xml.lastAttr (ascii "compression") start.Attr with
      | some a => a.Value
      | none => v.Compression) := by
  unfold LayerData.unmarshal at h
  split at h
  · cases h
  · split at h
    · cases h
    · next w hw =>
      obtain ⟨h1, h2⟩ := LayerData_forEach_attr start.Attr _ w hw
      cases h
      exact ⟨rfl, h1, h2⟩

/-- The `data` elements of a layer unmarshalled in order into one `LayerData`: the text of the
last element, and for each attribute the value of the last one carried. -/
theorem LayerData_forEach_unmarshal (ds : List (xml.StartElement × List xml.Node)) :
    ∀ (v w : LayerData),
      xml.forEach (fun (d : LayerData) (e : xml.StartElement × List xml.Node) =>
        LayerData.unmarshal d e.1 e.2) v ds = .ok w →
      w.Text = (match xml.lastOf ds with
        | none => v.Text
        | some d => xml.charData d.2) ∧
      w.Encoding = (match xml.lastAttrIn (ascii "encoding") ds with
        | none => v.Encoding
        | some a => a.Value) ∧
      w.Compression = (match xml.lastAttrIn (ascii "compression") ds with
        | none => v.Compression
        | some a => a.Value) := by
  induction ds with
  | nil =>
    intro v w h
    simp only [xml.forEach, Except.ok.injEq] at h
    subst h
    exact ⟨rfl, rfl, rfl⟩
  | cons e rest ih =>
    intro v w h
    simp only [xml.forEach] at h
    cases hs : LayerData.unmarshal v e.1 e.2 with
    | error x => rw [hs] at h; cases h
    | ok v1 =>
      rw [hs] at h
      obtain ⟨t1, e1, c1⟩ := LayerData_unmarshal_from v e.1 e.2 v1 hs
      obtain ⟨t2, e2, c2⟩ := ih v1 w h
      simp only [xml.lastOf, xml.lastAttrIn]
      refine ⟨?_, ?_, ?_⟩
      · rw [t2]; cases xml.lastOf rest <;> simp only [t1]
      · rw [e2]
        cases xml.lastAttrIn (ascii "encoding") rest with
        | some a => rfl
        | none =>
          simp only [e1]
          cases xml.lastAttr (ascii "encoding") e.1.Attr <;> rfl
      · rw [c2]
        cases xml.lastAttrIn (ascii "compression") rest with
        | some a => rfl
        | none =>
          simp only [c1]
          cases xml.lastAttr (ascii "compression") e.1.Attr <;> rfl

theorem Layer_unmarshal_tokenLayerData (start : xml.StartElement) (content : List xml.Node)
    (l : Layer) (h : Layer.unmarshal Layer.zero start content = .ok l) :
    tokenLayerData (start, content) l := by
  unfold Layer.unmarshal at h
  split at h
  · cases h
  · split at h
    · cases h
    · next w hw =>
      have h0 : w.Data = LayerData.zero :=
        xml_forEach_preserves Layer.attr (fun v => v.Data) Layer_attr_Data _ _ _ hw
      have hd := Layer_forEach_child_Data content w l h
      rw [h0] at hd
      obtain ⟨t, e, c⟩ := LayerData_forEach_unmarshal _ _ _ hd
      unfold tokenLayerData
      simp only
      refine ⟨?_, ?_, ?_⟩
      · rw [t]; cases xml.lastOf (xml.elements (ascii "data") content) <;> rfl
      · rw [e]; cases xml.lastAttrIn (ascii "encoding") (xml.elements (ascii "data") content) <;> rfl
      · rw [c]
        cases xml.lastAttrIn (ascii "compression") (xml.elements (ascii "data") content) <;> rfl

/-- The content loop of the `map` element appends one `Layer` per `layer` element, in order,
each with the `Data` of its own `data` elements. -/
theorem Map_forEach_child_Layers (content : List xml.Node) :
    ∀ (v w : Map), xml.forEach Map.child v content = .ok w →
      ∃ new, w.Layers = v.Layers ++ new ∧
        List.Forall₂ tokenLayerData (xml.elements (ascii "layer") content) new := by
  induction content with
  | nil =>
    intro v w h
    simp only [xml.forEach, Except.ok.injEq] at h
    subst h
    exact ⟨[], by simp, List.Forall₂.nil⟩
  | cons n rest ih =>
    intro v w h
    simp only [xml.forEach] at h
    cases hs : Map.child v n with
    | error e => rw [hs] at h; cases h
    | ok v1 =>
      rw [hs] at h
      obtain ⟨new, hnew, hrel⟩ := ih v1 w h
      cases n with
      | CharData d =>
        simp only [Map.child, Except.ok.injEq] at hs
        subst hs
        exact ⟨new, hnew, hrel⟩
      | Element start sub =>
        simp only [Map.child] at hs
        simp only [xml.elements]
        by_cases c1 : start.Name.Local = ascii "tileset"
        · rw [if_pos c1] at hs
          rw [if_neg (by rw [c1]; decide : ¬ start.Name.Local = ascii "layer")]
          split at hs
          · cases hs
          · cases hs; exact ⟨new, hnew, hrel⟩
        rw [if_neg c1] at hs
        by_cases c2 : start.Name.Local = ascii "layer"
        · rw [if_pos c2] at hs
          rw [if_pos c2]
          split at hs
          · cases hs
          · next l hl =>
            cases hs
            refine ⟨l :: new, ?_, List.Forall₂.cons (Layer_unmarshal_tokenLayerData start sub l hl)
              hrel⟩
            rw [hnew]; simp
        · rw [if_neg c2] at hs
          rw [if_neg c2]
          cases hs
          exact ⟨new, hnew, hrel⟩

/-! ## Lemmas on the tokenizer -/

theorem xml_startToken_some (start : xml.RawStart) (s : xml.StartElement)
    (h : xml.startToken start = some s) :
    s.Name = start.Name ∧ xml.attrTokens start.Attr = some s.Attr := by
  unfold xml.startToken at h
  split at h
  · cases h
  · next as has => cases h; exact ⟨rfl, has⟩

/-- The elements of the tokens of a content are the tokens of its elements, in order. -/
theorem xml_tokens_elements (name : GoString) (content : List xml.Raw) :
    ∀ nodes, xml.Raw.tokens content = some nodes →
      List.Forall₂
        (fun (r : xml.RawStart × List xml.Raw) (e : xml.StartElement × List xml.Node) =>
          xml.startToken r.1 = some e.1 ∧ xml.Raw.tokens r.2 = some e.2)
        (xml.rawElements name content) (xml.elements name nodes) := by
  induction content with
  | nil =>
    intro nodes h
    simp only [xml.Raw.tokens, Option.some.injEq] at h
    subst h
    exact List.Forall₂.nil
  | cons r rest ih =>
    intro nodes h
    simp only [xml.Raw.tokens] at h
    cases hr : xml.Raw.token r with
    | none => rw [hr] at h; cases h
    | some ns =>
      rw [hr] at h
      cases hrest : xml.Raw.tokens rest with
      | none => rw [hrest] at h; cases h
      | some ms =>
        rw [hrest] at h
        simp only [Option.some.injEq] at h
        subst h
        have hih := ih ms hrest
        cases r with
        | Element start c =>
          simp only [xml.Raw.token] at hr
          cases hs : xml.startToken start with
          | none => rw [hs] at hr; cases hr
          | some s =>
            rw [hs] at hr
            cases hc : xml.Raw.tokens c with
            | none => rw [hc] at hr; cases hr
            | some cn =>
              rw [hc] at hr
              simp only [Option.some.injEq] at hr
              subst hr
              have hname := (xml_startToken_some start s hs).1
              simp only [List.singleton_append, xml.rawElements, xml.elements, hname]
              split_ifs
              · exact List.Forall₂.cons ⟨hs, hc⟩ hih
              · exact hih
        | Text raw =>
          simp only [xml.Raw.token] at hr
          split at hr
          · cases hr
          · cases hr; exact hih
        | CDATA raw =>
          simp only [xml.Raw.token] at hr
          split at hr
          · cases hr
          · cases hr; exact hih
        | Comment raw =>
          simp only [xml.Raw.token] at hr
          split_ifs at hr
          cases hr
          exact hih

/-- The character data of the tokens of a content is its text content. -/
theorem xml_tokens_charData (content : List xml.Raw) :
    ∀ nodes, xml.Raw.tokens content = some nodes →
      xml.charData nodes = xml.textContent content := by
  induction content with
  | nil =>
    intro nodes h
    simp only [xml.Raw.tokens, Option.some.injEq] at h
    subst h
    rfl
  | cons r rest ih =>
    intro nodes h
    simp only [xml.Raw.tokens] at h
    cases hr : xml.Raw.token r with
    | none => rw [hr] at h; cases h
    | some ns =>
      rw [hr] at h
      cases hrest : xml.Raw.tokens rest with
      | none => rw [hrest] at h; cases h
      | some ms =>
        rw [hrest] at h
        simp only [Option.some.injEq] at h
        subst h
        have hih := ih ms hrest
        cases r with
        | Element start c =>
          simp only [xml.Raw.token] at hr
          split at hr
          · cases hr
          · split at hr
            · cases hr
            · cases hr
              simp only [List.singleton_append, xml.charData, xml.textContent]
              exact hih
        | Text raw =>
          simp only [xml.Raw.token] at hr
          cases ht : xml.text false raw with
          | none => rw [ht] at hr; cases hr
          | some data =>
            rw [ht] at hr
            cases hr
            simp only [List.singleton_append, xml.charData, xml.textContent, ht,
              Option.getD_some]
            exact congrArg (fun t => data ++ t) hih
        | CDATA raw =>
          simp only [xml.Raw.token] at hr
          cases ht : xml.text true raw with
          | none => rw [ht] at hr; cases hr
          | some data =>
            rw [ht] at hr
            cases hr
            simp only [List.singleton_append, xml.charData, xml.textContent, ht,
              Option.getD_some]
            exact congrArg (fun t => data ++ t) hih
        | Comment raw =>
          simp only [xml.Raw.token] at hr
          split_ifs at hr
          cases hr
          simp only [List.nil_append, xml.textContent]
          exact hih

/-- The last attribute of a name among the tokens of the attributes is the token of the last
attribute of that name as written. -/
theorem xml_attrTokens_lastAttr (name : GoString) (ras : List xml.RawAttr) :
    ∀ as, xml.attrTokens ras = some as →
      match xml.lastRawAttr name ras with
      | none => xml.lastAttr name as = none
      | some ra => ∃ a, xml.lastAttr name as = some a ∧ xml.text false ra.Value = some a.Value := by
  induction ras with
  | nil =>
    intro as h
    simp only [xml.attrTokens, Option.some.injEq] at h
    subst h
    rfl
  | cons ra rest ih =>
    intro as h
    simp only [xml.attrTokens] at h
    cases ht : xml.text false ra.Value with
    | none => rw [ht] at h; cases h
    | some v =>
      rw [ht] at h
      cases hrest : xml.attrTokens rest with
      | none => rw [hrest] at h; cases h
      | some as' =>
        rw [hrest] at h
        simp only [Option.some.injEq] at h
        subst h
        have hih := ih as' hrest
        simp only [xml.lastRawAttr, xml.lastAttr]
        cases hl : xml.lastRawAttr name rest with
        | some rb =>
          rw [hl] at hih
          obtain ⟨a, ha, hv⟩ := hih
          simp only [ha]
          exact ⟨a, rfl, hv⟩
        | none =>
          rw [hl] at hih
          simp only at hih
          simp only [hih]
          by_cases hn : ra.Name.Local = name
          · simp only [hn, if_true]
            exact ⟨_, rfl, ht⟩
          · simp only [hn, if_false]

theorem xml_lastAttrIn_tokens (name : GoString) (rds : List (xml.RawStart × List xml.Raw))
    (ds : List (xml.StartElement × List xml.Node))
    (h : List.Forall₂
      (fun (r : xml.RawStart × List xml.Raw) (e : xml.StartElement × List xml.Node) =>
        xml.startToken r.1 = some e.1 ∧ xml.Raw.tokens r.2 = some e.2) rds ds) :
    match xml.lastRawAttrIn name rds with
    | none => xml.lastAttrIn name ds = none
    | some ra =>
      ∃ a, xml.lastAttrIn name ds = some a ∧ xml.text false ra.Value = some a.Value := by
  induction h with
  | nil => rfl
  | @cons r e rrest erest hre _ ih =>
    simp only [xml.lastRawAttrIn, xml.lastAttrIn]
    cases hl : xml.lastRawAttrIn name rrest with
    | some rb =>
      rw [hl] at ih
      obtain ⟨a, ha, hv⟩ := ih
      simp only [ha]
      exact ⟨a, rfl, hv⟩
    | none =>
      rw [hl] at ih
      simp only at ih
      simp only [ih]
      exact xml_attrTokens_lastAttr name r.1.Attr e.1.Attr
        (xml_startToken_some r.1 e.1 hre.1).2

theorem xml_lastOf_forall₂ {α β : Type} (R : α → β → Prop) (xs : List α) (ys : List β)
    (h : List.Forall₂ R xs ys) :
    match xml.lastOf xs with
    | none => xml.lastOf ys = none
    | some x => ∃ y, xml.lastOf ys = some y ∧ R x y := by
  induction h with
  | nil => rfl
  | @cons x y xs' ys' hxy _ ih =>
    simp only [xml.lastOf]
    cases hl : xml.lastOf xs' with
    | some x' =>
      rw [hl] at ih
      obtain ⟨y', hy', hr⟩ := ih
      simp only [hy']
      exact ⟨y', rfl, hr⟩
    | none =>
      rw [hl] at ih
      simp only at ih
      simp only [ih]
      exact ⟨y, rfl, hxy⟩

theorem forall₂_comp_imp {α β γ : Type} (R : α → β → Prop) (S : β → γ → Prop)
    (T : α → γ → Prop) (hT : ∀ x y z, R x y → S y z → T x z) :
    ∀ (xs : List α) (ys : List β) (zs : List γ), List.Forall₂ R xs ys →
      List.Forall₂ S ys zs → List.Forall₂ T xs zs := by
  intro xs ys zs h
  induction h generalizing zs with
  | nil => intro h2; cases h2; exact List.Forall₂.nil
  | @cons x y xs' ys' hxy _ ih =>
    intro h2
    cases h2 with
    | cons hyz hrest => exact List.Forall₂.cons (hT x y _ hxy hyz) (ih _ hrest)

/-- On bytes without `&` and CR the main loop of `Decoder.text` copies its input. -/
theorem xml_textLoop_plain (cdata : Bool) (raw : GoString) :
    ∀ (b0 b1 : Nat) (out : GoString), b1 ≠ 13 → xml.plain raw →
      xml.textLoop cdata none b0 b1 raw = some out → out = raw := by
  induction raw with
  | nil =>
    intro b0 b1 out _ _ h
    simp only [xml.textLoop, Option.some.injEq] at h
    exact h.symm
  | cons b rest ih =>
    intro b0 b1 out hb1 hp h
    have hb38 : b ≠ 38 := fun e => hp.1 (by simp [e])
    have hb13 : b ≠ 13 := fun e => hp.2 (by simp [e])
    have hprest : xml.plain rest :=
      ⟨fun e => hp.1 (List.mem_cons_of_mem _ e), fun e => hp.2 (List.mem_cons_of_mem _ e)⟩
    simp only [xml.textLoop] at h
    by_cases c1 : b0 = 93 ∧ b1 = 93 ∧ b = 62
    · rw [if_pos c1] at h; cases h
    rw [if_neg c1] at h
    by_cases c2 : b = 60 ∧ cdata = false
    · rw [if_pos c2] at h; cases h
    rw [if_neg c2] at h
    have c3 : ¬ (b = 38 ∧ cdata = false) := fun e => hb38 e.1
    rw [if_neg c3] at h
    cases hl : xml.textLoop cdata none b1 b rest with
    | none => rw [hl] at h; cases h
    | some o =>
      rw [hl] at h
      have c4 : ¬ (b1 = 13 ∧ b = 10) := fun e => hb1 e.1
      simp only [if_neg hb13, if_neg c4, List.singleton_append, Option.some.injEq] at h
      rw [← h, ih b1 b o hb13 hprest hl]

/-- On bytes without `&` and CR the tokenizer delivers the bytes as they are. -/
theorem xml_text_plain (cdata : Bool) (raw data : GoString)
    (h : xml.text cdata raw = some data) (hp : xml.plain raw) : data = raw := by
  unfold xml.text at h
  cases hl : xml.textLoop cdata none 0 0 raw with
  | none => rw [hl] at h; cases h
  | some o =>
    rw [hl] at h
    simp only at h
    split_ifs at h
    cases h
    exact xml_textLoop_plain cdata raw 0 0 _ (by decide) hp hl

/-- After a `Read` without error the `Layers` are, in order, those of the `layer` elements of
the root of the element tree. -/
theorem Read_layers_token (start : xml.StartElement) (content : List xml.Node) (m : Map)
    (h : Read start content = .ok m) :
    List.Forall₂ tokenLayerData (xml.elements (ascii "layer") content) m.Layers := by
  unfold Read Map.unmarshal at h
  split at h
  · cases h
  · split at h
    · cases h
    · next w hw =>
      have h0 : w.Layers = [] :=
        xml_forEach_preserves Map.attr (fun v => v.Layers) Map_attr_Layers _ _ _ hw
      obtain ⟨new, hnew, hrel⟩ := Map_forEach_child_Layers content w m h
      rw [hnew, h0]
      exact hrel

/-- What the element tree says of a `Layer`, said of the input the tree is the tokens of. -/
theorem rawLayerData_of_tokens (re : xml.RawStart × List xml.Raw)
    (e : xml.StartElement × List xml.Node) (l : Layer)
    (ht : xml.startToken re.1 = some e.1 ∧ xml.Raw.tokens re.2 = some e.2)
    (hl : tokenLayerData e l) : rawLayerData re l := by
  have hds := xml_tokens_elements (ascii "data") re.2 e.2 ht.2
  obtain ⟨t, en, co⟩ := hl
  unfold rawLayerData
  refine ⟨?_, ?_, ?_⟩
  · have hlast := xml_lastOf_forall₂ _ _ _ hds
    cases hrl : xml.lastOf (xml.rawElements (ascii "data") re.2) with
    | none =>
      rw [hrl] at hlast
      simp only at hlast ⊢
      rw [t, hlast]
    | some rd =>
      rw [hrl] at hlast
      obtain ⟨d, hd, _, hdt⟩ := hlast
      simp only
      have htext : l.Data.Text = xml.textContent rd.2 := by
        rw [t, hd]
        exact xml_tokens_charData rd.2 d.2 hdt
      refine ⟨htext, fun raw hraw hp => ?_⟩
      rw [htext, hraw]
      rw [hraw] at hdt
      simp only [xml.Raw.tokens, xml.Raw.token] at hdt
      cases hx : xml.text false raw with
      | none => rw [hx] at hdt; cases hdt
      | some data =>
        simp only [xml.textContent, hx, Option.getD_some, List.append_nil]
        exact xml_text_plain false raw data hx hp
  · have hattr := xml_lastAttrIn_tokens (ascii "encoding") _ _ hds
    cases hra : xml.lastRawAttrIn (ascii "encoding") (xml.rawElements (ascii "data") re.2) with
    | none =>
      rw [hra] at hattr
      simp only at hattr ⊢
      rw [en, hattr]
    | some ra =>
      rw [hra] at hattr
      obtain ⟨a, ha, hv⟩ := hattr
      simp only
      have hval : l.Data.Encoding = a.Value := by rw [en, ha]
      rw [hval]
      exact ⟨hv, fun hp => xml_text_plain false ra.Value a.Value hv hp⟩
  · have hattr := xml_lastAttrIn_tokens (ascii "compression") _ _ hds
    cases hra : xml.lastRawAttrIn (ascii "compression") (xml.rawElements (ascii "data") re.2) with
    | none =>
      rw [hra] at hattr
      simp only at hattr ⊢
      rw [co, hattr]
    | some ra =>
      rw [hra] at hattr
      obtain ⟨a, ha, hv⟩ := hattr
      simp only
      have hval : l.Data.Compression = a.Value := by rw [co, ha]
      rw [hval]
      exact ⟨hv, fun hp => xml_text_plain false ra.Value a.Value hv hp⟩

/-! ## The attribute decoders -/

/-- C1 (the code at the spec's own test input): on the value `#112233` the hex decoding gives
the bytes 0x11, 0x22, 0x33, and `Color.UnmarshalXMLAttr` applied to the zero `Color` returns
`nil` with B = 0x33 and G = 0x22 but R = 0, not 0x11: with `n := len(bytes) - 1` the guard
`n > 2` of the red channel is false for three bytes. -/
theorem Color_UnmarshalXMLAttr_112233 :
    hex.DecodeString (ascii "112233") = .ok [0x11, 0x22, 0x33] ∧
    Color.zero.UnmarshalXMLAttr ⟨⟨[], ascii "backgroundcolor"⟩, ascii "#112233"⟩ =
      some ({ R := 0, G := 0x22, B := 0x33, A := 0 }, none) :=
  ⟨rfl, by decide⟩

/-- C2: when the value splits on `,` into four fields, each empty or parsed by `strconv.Atoi`,
`TerrainList.UnmarshalXMLAttr` returns `nil`, sets `Valid`, and sets the four corners to -1 for
an empty field and to the parsed integer otherwise, whatever the receiver held before. -/
theorem TerrainList_UnmarshalXMLAttr_ok (t : TerrainList) (attr : xml.Attr)
    (f0 f1 f2 f3 : GoString) (n0 n1 n2 n3 : Int)
    (hsplit : strings.Split attr.Value 44 = [f0, f1, f2, f3])
    (h0 : fieldValue f0 n0) (h1 : fieldValue f1 n1) (h2 : fieldValue f2 n2)
    (h3 : fieldValue f3 n3) :
    t.UnmarshalXMLAttr attr =
      some ({ Valid := true, Corners := ⟨[n0, n1, n2, n3], rfl⟩ }, none) := by
  have hnone : firstFieldError (strings.Split attr.Value 44) = none := by
    rw [hsplit]
    simp [firstFieldError, (fieldError_eq_none_iff f0).2 ⟨n0, h0⟩,
      (fieldError_eq_none_iff f1).2 ⟨n1, h1⟩, (fieldError_eq_none_iff f2).2 ⟨n2, h2⟩,
      (fieldError_eq_none_iff f3).2 ⟨n3, h3⟩]
  rcases TerrainList_UnmarshalXMLAttr_spec t attr with ⟨hl, _⟩ | ⟨_, e, _, he, _⟩ |
    ⟨_, _, t', ht', hv, hc⟩
  · rw [hsplit] at hl; exact absurd rfl hl
  · rw [hnone] at he; cases he
  · rw [ht']
    rw [hsplit] at hc
    obtain ⟨v, ⟨l, hl⟩⟩ := t'
    simp only at hv hc
    subst hv
    match l, hc with
    | [m0, m1, m2, m3], hc =>
      simp only [List.forall₂_cons] at hc
      obtain ⟨e0, e1, e2, e3, _⟩ := hc
      have a0 := fieldValue_unique f0 _ _ e0 h0
      have a1 := fieldValue_unique f1 _ _ e1 h1
      have a2 := fieldValue_unique f2 _ _ e2 h2
      have a3 := fieldValue_unique f3 _ _ e3 h3
      subst a0 a1 a2 a3
      rfl

/-- C2 at `1,,2,0` on a receiver that held other corners: `Corners = [1,-1,2,0]`, `Valid`. -/
theorem TerrainList_UnmarshalXMLAttr_ok_witness :
    TerrainList.UnmarshalXMLAttr { Valid := false, Corners := ⟨[7, 8, 9, 10], rfl⟩ }
        ⟨⟨[], ascii "terrain"⟩, ascii "1,,2,0"⟩ =
      some ({ Valid := true, Corners := ⟨[1, -1, 2, 0], rfl⟩ }, none) :=
  TerrainList_UnmarshalXMLAttr_ok _ ⟨⟨[], ascii "terrain"⟩, ascii "1,,2,0"⟩
    (ascii "1") [] (ascii "2") (ascii "0") 1 (-1) 2 0 (by decide)
    (Or.inr ⟨by decide, rfl⟩) (Or.inl ⟨rfl, rfl⟩) (Or.inr ⟨by decide, rfl⟩)
    (Or.inr ⟨by decide, rfl⟩)

/-- C3: `TerrainList.UnmarshalXMLAttr` always returns, and it returns an error exactly when
the value does not split on `,` into four fields or some non-empty field is rejected by
`strconv.Atoi`; with a field count other than four the error is the format error, and with
four fields it is the `strconv.Atoi` error of the first rejected non-empty field. -/
theorem TerrainList_UnmarshalXMLAttr_error_iff (t : TerrainList) (attr : xml.Attr) :
    ∃ t' err, t.UnmarshalXMLAttr attr = some (t', err) ∧
      (err ≠ none ↔ ((strings.Split attr.Value 44).length ≠ 4 ∨
          ∃ f ∈ strings.Split attr.Value 44, f ≠ [] ∧ ∃ e, strconv.Atoi f = .error e)) ∧
      ((strings.Split attr.Value 44).length ≠ 4 →
          err = some (errors.New (terrainListMessage ++ attr.Value))) ∧
      ((strings.Split attr.Value 44).length = 4 → ∀ pre f post e,
          strings.Split attr.Value 44 = pre ++ f :: post →
          (∀ g ∈ pre, g = [] ∨ ∃ n, strconv.Atoi g = .ok n) → f ≠ [] →
          strconv.Atoi f = .error e → err = some e) := by
  rcases TerrainList_UnmarshalXMLAttr_spec t attr with ⟨hl, h⟩ | ⟨hl, e, t', he, h, _⟩ |
    ⟨hl, hn, t', h, _, _⟩
  · refine ⟨_, _, h, ?_, fun _ => rfl, fun h4 => absurd h4 hl⟩
    simp [hl]
  · refine ⟨_, _, h, ?_, fun h4 => absurd hl h4, ?_⟩
    · have := (firstFieldError_ne_none_iff (strings.Split attr.Value 44)).1 (by simp [he])
      simp only [ne_eq, reduceCtorEq, not_false_eq_true, true_iff]
      exact Or.inr this
    · intro _ pre f post e' hs hpre hf hfe
      rw [hs, firstFieldError_of_first pre post f e' hpre hf hfe] at he
      exact he.symm
  · refine ⟨_, _, h, ?_, fun h4 => absurd hl h4, ?_⟩
    · have := firstFieldError_ne_none_iff (strings.Split attr.Value 44)
      rw [hn] at this
      simp only [ne_eq, not_true_eq_false, false_iff] at this ⊢
      rintro (h4 | h4)
      · exact h4 hl
      · exact this h4
    · intro _ pre f post e' hs hpre hf hfe
      rw [hs, firstFieldError_of_first pre post f e' hpre hf hfe] at hn
      cases hn

/-- C4: `Orientation.UnmarshalXMLAttr` returns `nil` for every value and every receiver, and
leaves the receiver equal to `orthogonal` for the empty value and to the value otherwise. -/
theorem Orientation_UnmarshalXMLAttr_spec (o : Orientation) (attr : xml.Attr) :
    Orientation.UnmarshalXMLAttr o attr =
      some (if attr.Value = [] then ascii "orthogonal" else attr.Value, none) := by
  unfold Orientation.UnmarshalXMLAttr
  simp only [List.length_eq_zero]
  rfl

/-- C5: `RenderOrder.UnmarshalXMLAttr` returns `nil` for every value and every receiver, and
leaves the receiver equal to `right-down` for the empty value and to the value otherwise. -/
theorem RenderOrder_UnmarshalXMLAttr_spec (o : RenderOrder) (attr : xml.Attr) :
    RenderOrder.UnmarshalXMLAttr o attr =
      some (if attr.Value = [] then ascii "right-down" else attr.Value, none) := by
  unfold RenderOrder.UnmarshalXMLAttr
  simp only [List.length_eq_zero]
  rfl

/-- C6 (as stated, refuted): the value `é112233` is not empty and what follows its first
character, `112233`, is valid hex, yet `Color.UnmarshalXMLAttr` returns an error: `é` is the
two bytes 0xC3 0xA9, `attr.Value[1:]` drops only the first, and 0xA9 is not a hex digit. -/
theorem Color_UnmarshalXMLAttr_first_character :
    utf8Chars "é112233".toList = 0xC3 :: 0xA9 :: ascii "112233" ∧
    utf8Chars ("é112233".toList.drop 1) = ascii "112233" ∧
    ((ascii "112233").length % 2 = 0 ∧ ∀ b ∈ ascii "112233", isHexDigit b) ∧
    Color.zero.UnmarshalXMLAttr ⟨⟨[], ascii "backgroundcolor"⟩, utf8Chars "é112233".toList⟩ =
      some (Color.zero, some (.InvalidByteError 0xA9)) := by
  decide

/-- C6 (amended): on a non-empty value `Color.UnmarshalXMLAttr` always returns, and it returns
an error exactly when the value without its first byte has odd length or contains a byte that
is not a hexadecimal digit. -/
theorem Color_UnmarshalXMLAttr_error_iff (c : Color) (attr : xml.Attr)
    (h : attr.Value ≠ []) :
    ∃ c' err, c.UnmarshalXMLAttr attr = some (c', err) ∧
      (err ≠ none ↔ ((attr.Value.drop 1).length % 2 = 1 ∨
          ∃ b ∈ attr.Value.drop 1, ¬ isHexDigit b)) := by
  have key := hex_Decode_ok_iff (attr.Value.drop 1)
  have hspec : (¬ ((attr.Value.drop 1).length % 2 = 0 ∧ ∀ b ∈ attr.Value.drop 1, isHexDigit b))
      ↔ ((attr.Value.drop 1).length % 2 = 1 ∨ ∃ b ∈ attr.Value.drop 1, ¬ isHexDigit b) := by
    rw [not_and_or]
    simp only [not_forall, exists_prop]
    constructor
    · rintro (h1 | h1)
      · exact Or.inl (by omega)
      · exact Or.inr h1
    · rintro (h1 | h1)
      · exact Or.inl (by omega)
      · exact Or.inr h1
  rcases Color_UnmarshalXMLAttr_cases c attr h with ⟨e, hd, hr⟩ | ⟨bs, c', hd, _, hr⟩
  · refine ⟨_, _, hr, ?_⟩
    rw [← hspec, ← key, hd]
    simp
  · refine ⟨_, _, hr, ?_⟩
    rw [← hspec, ← key, hd]
    simp

/-- C6 (amended) at the value `#1g` (rejected: `g` is not a hex digit) on the zero `Color`. -/
theorem Color_UnmarshalXMLAttr_error_iff_witness :
    ∃ c' err, Color.zero.UnmarshalXMLAttr ⟨⟨[], ascii "backgroundcolor"⟩, ascii "#1g"⟩ =
        some (c', err) ∧
      (err ≠ none ↔ (((ascii "#1g").drop 1).length % 2 = 1 ∨
          ∃ b ∈ (ascii "#1g").drop 1, ¬ isHexDigit b)) :=
  Color_UnmarshalXMLAttr_error_iff Color.zero ⟨⟨[], ascii "backgroundcolor"⟩, ascii "#1g"⟩
    (by decide)

/-- C7: on the empty value `Color.UnmarshalXMLAttr` returns `nil` and leaves the receiver as
it was; the zero `Color` stays `{R:0, G:0, B:0, A:0}`. -/
theorem Color_UnmarshalXMLAttr_empty (c : Color) (name : xml.Name) :
    c.UnmarshalXMLAttr ⟨name, []⟩ = some (c, none) ∧
    Color.zero.UnmarshalXMLAttr ⟨name, []⟩ = some ({ R := 0, G := 0, B := 0, A := 0 }, none) :=
  ⟨rfl, rfl⟩

/-- C14 (as stated, refuted): on the empty value the decoder returns `nil` for the prior
`Color` `{0,0,0,0}` and for the prior `Color` `{1,2,3,4}`, and leaves each as it was, so the
two resulting `Color`s differ. -/
theorem Color_UnmarshalXMLAttr_depends_on_receiver :
    Color.zero.UnmarshalXMLAttr ⟨⟨[], ascii "backgroundcolor"⟩, []⟩ =
        some ({ R := 0, G := 0, B := 0, A := 0 }, none) ∧
    Color.UnmarshalXMLAttr { R := 1, G := 2, B := 3, A := 4 }
        ⟨⟨[], ascii "backgroundcolor"⟩, []⟩ =
        some ({ R := 1, G := 2, B := 3, A := 4 }, none) ∧
    ({ R := 0, G := 0, B := 0, A := 0 } : Color) ≠ { R := 1, G := 2, B := 3, A := 4 } := by
  decide

/-- C14 (amended): for every attribute and any two prior `Color`s the decoder returns the
same error, and in the two resulting `Color`s each channel either has the same value or is in
both left as it was before the call. -/
theorem Color_UnmarshalXMLAttr_same_assignment (attr : xml.Attr) (c1 c2 : Color) :
    ∃ (r1 r2 : Color) (err : Option Error),
      c1.UnmarshalXMLAttr attr = some (r1, err) ∧ c2.UnmarshalXMLAttr attr = some (r2, err) ∧
      (r1.R = r2.R ∨ (r1.R = c1.R ∧ r2.R = c2.R)) ∧
      (r1.G = r2.G ∨ (r1.G = c1.G ∧ r2.G = c2.G)) ∧
      (r1.B = r2.B ∨ (r1.B = c1.B ∧ r2.B = c2.B)) ∧
      (r1.A = r2.A ∨ (r1.A = c1.A ∧ r2.A = c2.A)) := by
  obtain ⟨err, oR, oG, oB, oA, hform, _⟩ := Color_UnmarshalXMLAttr_form attr
  refine ⟨_, _, err, hform c1, hform c2, ?_, ?_, ?_, ?_⟩
  · cases oR <;> simp
  · cases oG <;> simp
  · cases oB <;> simp
  · cases oA <;> simp

/-- C15 (as stated, refuted): the values `é112233` and `#112233` are not empty and differ only
in their first character, yet on the zero `Color` the decoder returns an error for the first
and `nil` for the second: of the two bytes of `é` only the first is dropped. -/
theorem Color_UnmarshalXMLAttr_first_character_differs :
    "é112233".toList.drop 1 = "#112233".toList.drop 1 ∧
    "é112233".toList.take 1 ≠ "#112233".toList.take 1 ∧
    Color.zero.UnmarshalXMLAttr ⟨⟨[], ascii "backgroundcolor"⟩, utf8Chars "é112233".toList⟩ =
      some (Color.zero, some (.InvalidByteError 0xA9)) ∧
    Color.zero.UnmarshalXMLAttr ⟨⟨[], ascii "backgroundcolor"⟩, utf8Chars "#112233".toList⟩ =
      some ({ R := 0, G := 0x22, B := 0x33, A := 0 }, none) := by
  decide

/-- C15 (amended): two non-empty values that differ only in their first byte give, for every
prior `Color`, the same result: the same error and the same resulting `Color`. -/
theorem Color_UnmarshalXMLAttr_first_byte (c : Color) (name1 name2 : xml.Name) (p1 p2 : Nat)
    (rest : GoString) :
    c.UnmarshalXMLAttr ⟨name1, p1 :: rest⟩ = c.UnmarshalXMLAttr ⟨name2, p2 :: rest⟩ := by
  simp [Color.UnmarshalXMLAttr, sliceFrom]

/-- C16: `Color.UnmarshalXMLAttr` never panics: for every prior `Color` and every attribute
it returns, with `nil` or with an error; the slice `attr.Value[1:]` of a non-empty value is
in range, and so is every index of the channel assignments, for decoded bytes of any
length. -/
theorem Color_UnmarshalXMLAttr_returns (c : Color) (attr : xml.Attr) :
    (∃ c' err, c.UnmarshalXMLAttr attr = some (c', err)) ∧
    (attr.Value ≠ [] → ∃ rest, sliceFrom attr.Value 1 = some rest) ∧
    (∀ bytes : List Nat, ∃ c', c.setChannels bytes = some c') := by
  refine ⟨?_, fun hv => ?_, fun bytes => Color_setChannels_isSome c bytes⟩
  · obtain ⟨err, oR, oG, oB, oA, hform, _⟩ := Color_UnmarshalXMLAttr_form attr
    exact ⟨_, err, hform c⟩
  · have hle : 1 ≤ attr.Value.length :=
      Nat.pos_of_ne_zero fun h0 => hv (List.length_eq_zero.1 h0)
    exact ⟨attr.Value.drop 1, by simp only [sliceFrom, if_pos hle]⟩

/-- C17: when `Color.UnmarshalXMLAttr` returns an error, the `Color` is as it was before the
call. -/
theorem Color_UnmarshalXMLAttr_error_unchanged (c c' : Color) (attr : xml.Attr) (e : Error)
    (h : c.UnmarshalXMLAttr attr = some (c', some e)) : c' = c := by
  obtain ⟨err, oR, oG, oB, oA, hform, hnone⟩ := Color_UnmarshalXMLAttr_form attr
  rw [hform c] at h
  simp only [Option.some.injEq, Prod.mk.injEq] at h
  obtain ⟨hc, he⟩ := h
  obtain ⟨rfl, rfl, rfl, rfl⟩ := hnone (by rw [he]; simp)
  rw [← hc]
  rfl

/-- C17 on the value `#1g` and the prior `Color` `{1,2,3,4}`: the error is
`InvalidByteError('g')` and the `Color` is unchanged. -/
theorem Color_UnmarshalXMLAttr_error_unchanged_witness :
    Color.UnmarshalXMLAttr { R := 1, G := 2, B := 3, A := 4 }
        ⟨⟨[], ascii "backgroundcolor"⟩, ascii "#1g"⟩ =
        some ({ R := 1, G := 2, B := 3, A := 4 }, some (.InvalidByteError 103)) ∧
    ({ R := 1, G := 2, B := 3, A := 4 } : Color) = { R := 1, G := 2, B := 3, A := 4 } :=
  ⟨by decide, Color_UnmarshalXMLAttr_error_unchanged _ _
    ⟨⟨[], ascii "backgroundcolor"⟩, ascii "#1g"⟩ (.InvalidByteError 103) (by decide)⟩

/-- C11 (as stated, refuted): on the value `-5,-1,0,` the decoder returns `nil` with
`Corners = [-5,-1,0,-1]`: the first corner is below -1, and the second corner is -1 although
its field `-1` is not empty. -/
theorem TerrainList_UnmarshalXMLAttr_negative_corner :
    TerrainList.zero.UnmarshalXMLAttr ⟨⟨[], ascii "terrain"⟩, ascii "-5,-1,0,"⟩ =
        some ({ Valid := true, Corners := ⟨[-5, -1, 0, -1], rfl⟩ }, none) ∧
    strings.Split (ascii "-5,-1,0,") 44 = [ascii "-5", ascii "-1", ascii "0", []] ∧
    (-5 : Int) < -1 ∧ ascii "-1" ≠ [] := by
  decide

/-- C11 (amended): when `TerrainList.UnmarshalXMLAttr` returns `nil`, each of the four corners
is -1 for an empty field and the integer `strconv.Atoi` parses for a non-empty field, and a
corner whose field does not begin with `-` is -1 exactly when its field is empty and is
non-negative otherwise. -/
theorem TerrainList_UnmarshalXMLAttr_corners (t t' : TerrainList) (attr : xml.Attr)
    (h : t.UnmarshalXMLAttr attr = some (t', none)) :
    List.Forall₂ cornerOfField (strings.Split attr.Value 44) t'.Corners.1 := by
  rcases TerrainList_UnmarshalXMLAttr_spec t attr with ⟨_, hr⟩ | ⟨_, e, t'', _, hr, _⟩ |
    ⟨_, _, t'', hr, _, hc⟩
  · rw [hr] at h; simp at h
  · rw [hr] at h; simp at h
  · rw [hr] at h
    simp only [Option.some.injEq, Prod.mk.injEq, and_true] at h
    rw [← h]
    exact hc.imp cornerOfField_of_fieldValue

/-- C11 (amended) on `1,,2,0`: the corners `[1,-1,2,0]` stand for the four fields. -/
theorem TerrainList_UnmarshalXMLAttr_corners_witness :
    List.Forall₂ cornerOfField (strings.Split (ascii "1,,2,0") 44) [1, -1, 2, 0] :=
  TerrainList_UnmarshalXMLAttr_corners TerrainList.zero
    { Valid := true, Corners := ⟨[1, -1, 2, 0], rfl⟩ } ⟨⟨[], ascii "terrain"⟩, ascii "1,,2,0"⟩
    (by decide)

/-- C18: when `TerrainList.UnmarshalXMLAttr` returns an error, `Valid` is as it was before the
call, and when the error is the format error of the field count, `Corners` is as it was as
well. -/
theorem TerrainList_UnmarshalXMLAttr_error_keeps (t t' : TerrainList) (attr : xml.Attr)
    (e : Error) (h : t.UnmarshalXMLAttr attr = some (t', some e)) :
    t'.Valid = t.Valid ∧
    (e = errors.New (terrainListMessage ++ attr.Value) → t'.Corners = t.Corners) := by
  rcases TerrainList_UnmarshalXMLAttr_spec t attr with ⟨_, hr⟩ | ⟨_, e', t'', he, hr, hv⟩ |
    ⟨_, _, t'', hr, _, _⟩
  · rw [hr] at h
    simp only [Option.some.injEq, Prod.mk.injEq] at h
    rw [← h.1]
    exact ⟨rfl, fun _ => rfl⟩
  · rw [hr] at h
    simp only [Option.some.injEq, Prod.mk.injEq] at h
    obtain ⟨h1, h2⟩ := h
    subst h1 h2
    refine ⟨hv, fun hnew => ?_⟩
    obtain ⟨f, _, hf⟩ := firstFieldError_some_mem _ _ he
    obtain ⟨k, hk⟩ := strconv_Atoi_error_form f _ ((fieldError_eq_some_iff f _).1 hf).2
    rw [hk] at hnew
    cases hnew
  · rw [hr] at h; simp at h

/-- C18 on the three fields `1,2,3`, with a prior value that is not valid and holds the corners
`[7,8,9,10]`: the format error is returned and the receiver is as it was. -/
theorem TerrainList_UnmarshalXMLAttr_error_keeps_witness :
    TerrainList.UnmarshalXMLAttr { Valid := false, Corners := ⟨[7, 8, 9, 10], rfl⟩ }
        ⟨⟨[], ascii "terrain"⟩, ascii "1,2,3"⟩ =
      some ({ Valid := false, Corners := ⟨[7, 8, 9, 10], rfl⟩ },
        some (errors.New (terrainListMessage ++ ascii "1,2,3"))) ∧
    (false = false ∧
      (errors.New (terrainListMessage ++ ascii "1,2,3") =
          errors.New (terrainListMessage ++ ascii "1,2,3") →
        (⟨[7, 8, 9, 10], rfl⟩ : Array4) = ⟨[7, 8, 9, 10], rfl⟩)) :=
  ⟨by decide,
    TerrainList_UnmarshalXMLAttr_error_keeps
      { Valid := false, Corners := ⟨[7, 8, 9, 10], rfl⟩ }
      { Valid := false, Corners := ⟨[7, 8, 9, 10], rfl⟩ }
      ⟨⟨[], ascii "terrain"⟩, ascii "1,2,3"⟩
      (errors.New (terrainListMessage ++ ascii "1,2,3")) (by decide)⟩

/-! ## `Read` -/

/-- C8 (the code on a document whose `map` element has neither an `orientation` nor a
`renderorder` attribute, `<map width="1" height="1"></map>`): `Read` returns `nil` and a `Map`
whose `Orientation` and `RenderOrder` are the empty string, not `orthogonal` and
`right-down`: the two `UnmarshalXMLAttr` methods that hold the defaults are not called. -/
theorem Read_without_orientation :
    ∃ m, Read ⟨⟨[], ascii "map"⟩, [⟨⟨[], ascii "width"⟩, ascii "1"⟩,
        ⟨⟨[], ascii "height"⟩, ascii "1"⟩]⟩ [] = .ok m ∧
      m.Orientation = [] ∧ m.RenderOrder = [] ∧
      m.Orientation ≠ ascii "orthogonal" ∧ m.RenderOrder ≠ ascii "right-down" :=
  ⟨_, rfl, rfl, rfl, by decide, by decide⟩

/-- C9: after a `Read` without error, the `TileSets` of the `Map` are, in order, those of the
`tileset` elements of the root, the `Tiles` of each are those of its `tile` elements, and for
each `tile` element and its `Tile`, `Terrain.Valid` holds exactly when the element carries a
`terrain` attribute, in which case the four `Corners` are the values of the four fields of
that attribute (-1 for an empty field, the parsed integer otherwise). -/
theorem Read_tile_terrain (start : xml.StartElement) (content : List xml.Node) (m : Map)
    (h : Read start content = .ok m) :
    List.Forall₂
      (fun e ts => List.Forall₂ (fun e t => tileTerrain e.1 t)
        (xml.elements (ascii "tile") e.2) ts.Tiles)
      (xml.elements (ascii "tileset") content) m.TileSets := by
  unfold Read Map.unmarshal at h
  split at h
  · cases h
  · split at h
    · cases h
    · next w hw =>
      have h0 : w.TileSets = [] :=
        xml_forEach_preserves Map.attr (fun v => v.TileSets) Map_attr_TileSets _ _ _ hw
      obtain ⟨new, hnew, hrel⟩ := Map_forEach_child_TileSets content w m h
      rw [hnew, h0]
      exact hrel

/-- C9 on the minimal document: `Read` returns `nil`, the one tile has `Valid` and
`Corners = [0,1,2,3]`, and the relation of C9 holds. -/
theorem Read_tile_terrain_witness :
    ∃ m, Read minimalStart minimalContent = .ok m ∧
      m.TileSets.map (fun ts => ts.Tiles.map (fun t => (t.Terrain.Valid, t.Terrain.Corners.1)))
        = [[(true, [0, 1, 2, 3])]] ∧
      List.Forall₂
        (fun e ts => List.Forall₂ (fun e t => tileTerrain e.1 t)
          (xml.elements (ascii "tile") e.2) ts.Tiles)
        (xml.elements (ascii "tileset") minimalContent) m.TileSets :=
  ⟨_, rfl, rfl, Read_tile_terrain minimalStart minimalContent _ rfl⟩

/-- C10: when the root start tag carries a `backgroundcolor` attribute with a rejected value,
or a `tile` element of a `tileset` element of the root carries a `terrain` attribute with a
rejected value, `Read` returns a non-nil error. -/
theorem Read_error_of_rejected (start : xml.StartElement) (content : List xml.Node)
    (h : (∃ a ∈ start.Attr, a.Name.Local = ascii "backgroundcolor" ∧ rejectedColor a.Value) ∨
      (∃ ts ∈ xml.elements (ascii "tileset") content,
        ∃ tile ∈ xml.elements (ascii "tile") ts.2,
          ∃ a ∈ tile.1.Attr, a.Name.Local = ascii "terrain" ∧ rejectedTerrain a.Value)) :
    ∃ e, Read start content = .error (.err e) := by
  cases hr : Read start content with
  | error x =>
    cases x with
    | err e => exact ⟨e, rfl⟩
    | panic => exact absurd hr (Read_ne_panic start content)
  | ok m =>
    exfalso
    rcases h with ⟨a, ha, hn, hbad⟩ | ⟨ts, hts, tile, htile, a, ha, hn, hbad⟩
    · exact Read_ok_backgroundcolor start content m hr a ha hn hbad
    · exact Read_ok_terrain start content m hr ts hts tile htile a ha hn hbad

/-- C10 on `<map backgroundcolor="#12345"></map>`: five hex digits are rejected. -/
theorem Read_error_of_rejected_witness :
    ∃ e, Read ⟨⟨[], ascii "map"⟩, [⟨⟨[], ascii "backgroundcolor"⟩, ascii "#12345"⟩]⟩ [] =
      .error (.err e) :=
  Read_error_of_rejected ⟨⟨[], ascii "map"⟩, [⟨⟨[], ascii "backgroundcolor"⟩, ascii "#12345"⟩]⟩
    [] (Or.inl ⟨_, List.mem_singleton_self _, rfl, by decide, Or.inl (by decide)⟩)

/-- C12 (as stated, refuted): `Read` decodes `<map width="-1" height="1"></map>` without
error, and the returned `Map` has `Width = -1`. -/
theorem Read_negative_width :
    ∃ m, Read ⟨⟨[], ascii "map"⟩, [⟨⟨[], ascii "width"⟩, ascii "-1"⟩,
        ⟨⟨[], ascii "height"⟩, ascii "1"⟩]⟩ [] = .ok m ∧
      m.Width = -1 ∧ ¬ (0 ≤ m.Width) :=
  ⟨_, rfl, rfl, by decide⟩

/-- C12 (amended): after a `Read` without error of a document whose `map` start tag has no
`width`, `height`, `tilewidth` or `tileheight` attribute with a `-` in its value, the `Map`
has `Width`, `Height`, `TileWidth` and `TileHeight` all non-negative. -/
theorem Read_dims_nonneg (start : xml.StartElement) (content : List xml.Node) (m : Map)
    (h : Read start content = .ok m)
    (hm : ∀ a ∈ start.Attr,
      a.Name.Local ∈ [ascii "width", ascii "height", ascii "tilewidth", ascii "tileheight"] →
        45 ∉ a.Value) :
    0 ≤ m.Width ∧ 0 ≤ m.Height ∧ 0 ≤ m.TileWidth ∧ 0 ≤ m.TileHeight := by
  unfold Read Map.unmarshal at h
  split at h
  · cases h
  · split at h
    · cases h
    · next w hw =>
      have hw0 : 0 ≤ w.Width ∧ 0 ≤ w.Height ∧ 0 ≤ w.TileWidth ∧ 0 ≤ w.TileHeight :=
        xml_forEach_invariant_mem Map.attr
          (fun v => 0 ≤ v.Width ∧ 0 ≤ v.Height ∧ 0 ≤ v.TileWidth ∧ 0 ≤ v.TileHeight)
          start.Attr _ w (fun a ha v w hs hv => Map_attr_dims v w a hs (hm a ha) hv) hw
          ⟨le_refl _, le_refl _, le_refl _, le_refl _⟩
      have hk := xml_forEach_preserves Map.child
        (fun v => (v.Width, v.Height, v.TileWidth, v.TileHeight))
        (fun v a w hs => Map_child_dims v w a hs) _ _ _ h
      simp only [Prod.mk.injEq] at hk
      obtain ⟨k1, k2, k3, k4⟩ := hk
      rw [k1, k2, k3, k4]
      exact hw0

/-- C12 (amended) on the minimal document, whose dimensions are 1, 1, 16 and 16. -/
theorem Read_dims_nonneg_witness :
    ∃ m, Read minimalStart minimalContent = .ok m ∧
      (m.Width, m.Height, m.TileWidth, m.TileHeight) = (1, 1, 16, 16) ∧
      (0 ≤ m.Width ∧ 0 ≤ m.Height ∧ 0 ≤ m.TileWidth ∧ 0 ≤ m.TileHeight) :=
  ⟨_, rfl, rfl, Read_dims_nonneg minimalStart minimalContent _ rfl (by decide)⟩

/-- C13 (as stated, refuted): in the document whose one layer has the `data` content
`1,2,` CR LF `3,&#52;`, `Read` returns `nil` and `Text` is `1,2,` LF `3,4`: the tokenizer of
`encoding/xml` has rewritten CR LF to LF and expanded the character reference, so `Text` is
not the text content as it appears in the input. -/
theorem ReadDocument_text_rewritten :
    ∃ m, ReadDocument writtenStart (writtenLayer [.Text (ascii "1,2,\r\n3,&#52;")]) = some m ∧
      m.Layers.map (fun l => l.Data.Text) = [ascii "1,2,\n3,4"] ∧
      ascii "1,2,\n3,4" ≠ ascii "1,2,\r\n3,&#52;" :=
  ⟨_, rfl, by decide, by decide⟩

/-- C13 (amended): after a `Read` without error, the `Layers` of the `Map` are, in order,
those of the `layer` elements of the root, and for each of them `Text`, `Encoding` and
`Compression` are what the tokenizer of `encoding/xml` delivers for the text content of the
layer's last `data` element and for the last `encoding` and `compression` attributes of its
`data` elements: entity references expanded, CR and CR LF rewritten to LF, CDATA sections
unwrapped, comments and sub-elements left out, and otherwise nothing trimmed or decoded.
Where the content is one run of character data, or the attribute value is, without `&` and
CR, the field is equal to it byte for byte; without such an element or attribute the field is
empty. -/
theorem ReadDocument_layer_data (start : xml.RawStart) (content : List xml.Raw) (m : Map)
    (h : ReadDocument start content = some m) :
    List.Forall₂ rawLayerData (xml.rawElements (ascii "layer") content) m.Layers := by
  unfold ReadDocument at h
  cases hs : xml.startToken start with
  | none => rw [hs] at h; cases h
  | some s =>
    rw [hs] at h
    cases hc : xml.Raw.tokens content with
    | none => rw [hc] at h; cases h
    | some nodes =>
      rw [hc] at h
      simp only at h
      cases hr : Read s nodes with
      | error x => rw [hr] at h; cases h
      | ok m' =>
        rw [hr] at h
        simp only [Option.some.injEq] at h
        subst h
        exact forall₂_comp_imp _ _ _ rawLayerData_of_tokens _ _ _
          (xml_tokens_elements (ascii "layer") content nodes hc) (Read_layers_token s nodes m' hr)

/-- C13 (amended) on the document whose one layer has the `data` content `1,2,` LF `3,4`:
`Encoding` is `csv`, `Compression` is empty and `Text` is the content byte for byte. -/
theorem ReadDocument_layer_data_witness :
    ∃ m, ReadDocument writtenStart (writtenLayer [.Text (ascii "1,2,\n3,4")]) = some m ∧
      m.Layers.map (fun l => (l.Data.Encoding, l.Data.Compression, l.Data.Text)) =
        [(ascii "csv", [], ascii "1,2,\n3,4")] ∧
      List.Forall₂ rawLayerData
        (xml.rawElements (ascii "layer") (writtenLayer [.Text (ascii "1,2,\n3,4")])) m.Layers :=
  ⟨_, rfl, by decide,
    ReadDocument_layer_data writtenStart (writtenLayer [.Text (ascii "1,2,\n3,4")]) _ rfl⟩

end tiled
